import Mathlib

/-!
Verification development for the deep-diff comparison pipeline.

The definitions below are a shallow embedding of `src/deep_diff/core`:
`models.py` (data model), `text.py` (TextComparator and its use of
`difflib.SequenceMatcher`), `filtering.py` (FileFilter), `structure.py`
(StructureComparator), `content.py` (ContentComparator) and
`comparator.py` (the pipeline orchestrator).

File contents are byte lists (`List Nat`, each entry < 256); decoded text
is a list of Unicode code points (`List Nat`); lines are `List Nat`
values that keep their terminators, mirroring `str.splitlines(keepends=True)`.
Similarity ratios are exact rationals; the Python floats `2.0*M/T` are the
same values whenever they are exactly representable, and every claim below
only depends on exact comparisons with 1.0 (which agree) or on concrete
small rationals.

The `difflib.SequenceMatcher` dependency (Python standard library) is
embedded from its source, specialised to `isjunk=None` and without the
`autojunk` popularity heuristic (the heuristic only activates for
sequences of at least 200 elements; with it disabled `b2j` holds every
position of `b`, the two junk-extension loops of `find_longest_match`
never fire, and the two non-junk extension loops are kept).
-/

namespace DeepDiff

/-- Comparison depth level (`models.DiffDepth`). -/
inductive DiffDepth where
  | structure'
  | content
  | text
deriving DecidableEq, Repr

/-- Status of a file in the comparison (`models.FileStatus`). -/
inductive FileStatus where
  | identical
  | modified
  | added
  | removed
deriving DecidableEq, Repr

/-- Type of a line-level change (`models.ChangeType`). -/
inductive ChangeType where
  | insert
  | delete
  | substitute
  | equal
deriving DecidableEq, Repr

/-- A single line-level change within a hunk (`models.TextChange`). -/
structure TextChange where
  change_type : ChangeType
  content : List Nat
  line_left : Option Nat
  line_right : Option Nat
deriving DecidableEq, Repr

/-- A contiguous block of text changes (`models.Hunk`). -/
structure Hunk where
  start_left : Nat
  count_left : Nat
  start_right : Nat
  count_right : Nat
  changes : List TextChange
deriving DecidableEq, Repr

/-- Comparison result for a single file pair (`models.FileComparison`).
Paths are plain strings; absent sides are `none`. -/
structure FileComparison where
  relative_path : String
  status : FileStatus
  left_path : Option String
  right_path : Option String
  hunks : List Hunk := []
  content_hash_left : Option String := none
  content_hash_right : Option String := none
  similarity : Option ℚ := none
deriving DecidableEq, Repr

/-- Summary statistics (`models.DiffStats`). -/
structure DiffStats where
  total_files : Nat
  identical : Nat
  modified : Nat
  added : Nat
  removed : Nat
deriving DecidableEq, Repr

/-- Compute stats by counting file statuses (`DiffStats.from_comparisons`). -/
def DiffStats.from_comparisons (comparisons : List FileComparison) : DiffStats :=
  { total_files := comparisons.length
    identical := (comparisons.filter (fun c => c.status = FileStatus.identical)).length
    modified := (comparisons.filter (fun c => c.status = FileStatus.modified)).length
    added := (comparisons.filter (fun c => c.status = FileStatus.added)).length
    removed := (comparisons.filter (fun c => c.status = FileStatus.removed)).length }

/-- Top-level result of a comparison run (`models.DiffResult`). -/
structure DiffResult where
  left_root : String
  right_root : String
  depth : DiffDepth
  comparisons : List FileComparison
  stats : DiffStats
deriving DecidableEq, Repr

/-- Errors raised by the pipeline, tagged with the Python exception class. -/
inductive PyError where
  | valueError (msg : String)
  | fileNotFoundError (msg : String)
  | notADirectoryError (msg : String)
  | isADirectoryError (msg : String)
deriving DecidableEq, Repr

/-- Lexicographic `≤` on character lists by code point, the ordering
Python uses to compare `str` values (e.g. inside `list.sort`). -/
def charListLe : List Char → List Char → Bool
  | [], _ => true
  | _ :: _, [] => false
  | c :: cs, d :: ds => if c = d then charListLe cs ds else decide (c < d)

/-- Ordered insertion for the stable insertion sort below. -/
def insertLe {α : Type} (le : α → α → Bool) (x : α) : List α → List α
  | [] => [x]
  | y :: ys => if le x y then x :: y :: ys else y :: insertLe le x ys

/-- A stable sort modelling Python's `sorted`/`list.sort` (any stable
sort produces the same list; insertion sort keeps every definition
computable by kernel reduction). -/
def sortLe {α : Type} (le : α → α → Bool) (l : List α) : List α :=
  l.foldr (insertLe le) []

theorem insertLe_perm {α : Type} (le : α → α → Bool) (x : α) (l : List α) :
    List.Perm (insertLe le x l) (x :: l) := by
  induction l with
  | nil => rfl
  | cons y ys ih =>
    simp only [insertLe]
    split
    · exact List.Perm.refl _
    · exact ((ih.cons y).trans (List.Perm.swap x y ys))

theorem sortLe_perm {α : Type} (le : α → α → Bool) (l : List α) :
    List.Perm (sortLe le l) l := by
  induction l with
  | nil => rfl
  | cons y ys ih => exact (insertLe_perm le y (sortLe le ys)).trans (ih.cons y)

theorem mem_sortLe {α : Type} (le : α → α → Bool) (l : List α) (a : α) :
    a ∈ sortLe le l ↔ a ∈ l :=
  (sortLe_perm le l).mem_iff

/-- `str.split("/")` on a character list. -/
def splitOnSlash : List Char → List (List Char)
  | [] => [[]]
  | c :: rest =>
    if c = '/' then [] :: splitOnSlash rest
    else
      match splitOnSlash rest with
      | [] => [[c]]
      | h :: t => (c :: h) :: t

theorem range'_concat_one (s n : Nat) :
    List.range' s (n + 1) = List.range' s n ++ [s + n] := by
  induction n generalizing s with
  | zero => simp [List.range']
  | succ m ih =>
    rw [List.range'_succ, ih (s + 1), List.range'_succ]
    simp only [List.cons_append]
    have h : s + 1 + m = s + (m + 1) := by omega
    rw [h]

/-- Basename of a path (`Path.name`). -/
def pathName (p : String) : String :=
  ⟨(splitOnSlash p.toList).getLastD p.toList⟩

namespace Difflib

/-- A matching block `(besti, bestj, size)` as returned by
`SequenceMatcher.find_longest_match`. -/
structure MatchBlock where
  besti : Nat
  bestj : Nat
  size : Nat
deriving DecidableEq, Repr

variable {α : Type} [DecidableEq α]

/-- One step of the inner `for j in b2j[a[i]]` loop of
`find_longest_match`: `prev` is the previous row's `j2len`, the
accumulator carries the new row (`newj2len`) and the running best block.
The diagonal-run length is `j2len.get(j-1, 0) + 1`. -/
def flmStep (a b : List α) (prev : Nat → Nat) (i : Nat)
    (acc : (Nat → Nat) × MatchBlock) (j : Nat) : (Nat → Nat) × MatchBlock :=
  if b.get? j = a.get? i then
    let k := (if j = 0 then 0 else prev (j - 1)) + 1
    let row := fun x => if x = j then k else acc.1 x
    let best := if acc.2.size < k then ⟨i + 1 - k, j + 1 - k, k⟩ else acc.2
    (row, best)
  else acc

/-- One row of the `find_longest_match` dynamic programme (the body of the
`for i in range(alo, ahi)` loop): the new row starts empty. -/
def flmRow (a b : List α) (blo bhi : Nat) (prev : Nat → Nat)
    (best : MatchBlock) (i : Nat) : (Nat → Nat) × MatchBlock :=
  (List.range' blo (bhi - blo)).foldl (flmStep a b prev i) (fun _ => 0, best)

/-- The dynamic programme of `find_longest_match` over all rows, before
the extension loops.  The initial best block is `(alo, blo, 0)`. -/
def flmDP (a b : List α) (alo ahi blo bhi : Nat) : MatchBlock :=
  ((List.range' alo (ahi - alo)).foldl
    (fun acc i => flmRow a b blo bhi acc.1 acc.2 i)
    (fun _ => 0, (⟨alo, blo, 0⟩ : MatchBlock))).2

/-- Left extension loop of `find_longest_match`
(`while besti > alo and bestj > blo and a[besti-1] == b[bestj-1]`),
written with fuel `m.besti`, which bounds the number of iterations. -/
def extendLeft (a b : List α) (alo blo : Nat) : Nat → MatchBlock → MatchBlock
  | 0, m => m
  | fuel + 1, m =>
    if alo < m.besti ∧ blo < m.bestj ∧ a.get? (m.besti - 1) = b.get? (m.bestj - 1) then
      extendLeft a b alo blo fuel ⟨m.besti - 1, m.bestj - 1, m.size + 1⟩
    else m

/-- Right extension loop of `find_longest_match`
(`while besti+bestsize < ahi and bestj+bestsize < bhi and a[...] == b[...]`),
written with fuel `ahi - (m.besti + m.size)`. -/
def extendRight (a b : List α) (ahi bhi : Nat) : Nat → MatchBlock → MatchBlock
  | 0, m => m
  | fuel + 1, m =>
    if m.besti + m.size < ahi ∧ m.bestj + m.size < bhi ∧
        a.get? (m.besti + m.size) = b.get? (m.bestj + m.size) then
      extendRight a b ahi bhi fuel ⟨m.besti, m.bestj, m.size + 1⟩
    else m

/-- `SequenceMatcher.find_longest_match` on `a[alo:ahi]` and `b[blo:bhi]`:
the dynamic programme followed by the two extension loops. -/
def findLongestMatch (a b : List α) (alo ahi blo bhi : Nat) : MatchBlock :=
  let m := flmDP a b alo ahi blo bhi
  let m := extendLeft a b alo blo m.besti m
  extendRight a b ahi bhi (ahi - (m.besti + m.size)) m

/-- Recursive collection of matching blocks (`get_matching_blocks` uses an
explicit queue and a final sort; emitting the left sub-range, the block,
then the right sub-range yields the same sorted list).  `fuel` bounds the
recursion depth; `a.length + b.length + 1` always suffices. -/
def matchingBlocksAux (a b : List α) : Nat → Nat → Nat → Nat → Nat → List MatchBlock
  | 0, _, _, _, _ => []
  | fuel + 1, alo, ahi, blo, bhi =>
    let m := findLongestMatch a b alo ahi blo bhi
    if m.size = 0 then []
    else
      matchingBlocksAux a b fuel alo m.besti blo m.bestj ++ [m] ++
        matchingBlocksAux a b fuel (m.besti + m.size) ahi (m.bestj + m.size) bhi

/-- Adjacent-block merging step of `get_matching_blocks`
(`non_adjacent` accumulation).  The state is the pending block
`(i1, j1, k1)`; pending blocks of size zero are dropped. -/
def mergeAdjacent : MatchBlock → List MatchBlock → List MatchBlock
  | pending, [] => if pending.size = 0 then [] else [pending]
  | pending, m :: rest =>
    if pending.besti + pending.size = m.besti ∧ pending.bestj + pending.size = m.bestj then
      mergeAdjacent ⟨pending.besti, pending.bestj, pending.size + m.size⟩ rest
    else
      (if pending.size = 0 then [] else [pending]) ++ mergeAdjacent m rest

/-- `SequenceMatcher.get_matching_blocks`: the merged blocks followed by
the `(len(a), len(b), 0)` sentinel. -/
def getMatchingBlocks (a b : List α) : List MatchBlock :=
  mergeAdjacent ⟨0, 0, 0⟩
      (matchingBlocksAux a b (a.length + b.length + 1) 0 a.length 0 b.length) ++
    [⟨a.length, b.length, 0⟩]

/-- `SequenceMatcher.ratio()` as an exact rational:
`2*M / T` with `M` the total size of the matching blocks and
`T = len(a) + len(b)`; `T = 0` yields `1`. -/
def ratioVal (a b : List α) : ℚ :=
  let m : Nat := ((getMatchingBlocks a b).map MatchBlock.size).sum
  let t : Nat := a.length + b.length
  if t = 0 then 1 else mkRat (2 * m) t

/-- Opcode tag of `SequenceMatcher.get_opcodes`. -/
inductive OpTag where
  | replace
  | delete
  | insert
  | equal
deriving DecidableEq, Repr

/-- One opcode `(tag, i1, i2, j1, j2)`. -/
structure Opcode where
  tag : OpTag
  i1 : Nat
  i2 : Nat
  j1 : Nat
  j2 : Nat
deriving DecidableEq, Repr

/-- The loop body of `get_opcodes`: from the cursor `(i, j)` and the next
matching block, emit a replace/delete/insert opcode for the gap and an
equal opcode for the block itself when it is non-empty. -/
def opcodesStep (st : Nat × Nat × List Opcode) (m : MatchBlock) : Nat × Nat × List Opcode :=
  let i := st.1
  let j := st.2.1
  let answer := st.2.2
  let answer :=
    if i < m.besti ∧ j < m.bestj then answer ++ [⟨OpTag.replace, i, m.besti, j, m.bestj⟩]
    else if i < m.besti then answer ++ [⟨OpTag.delete, i, m.besti, j, m.bestj⟩]
    else if j < m.bestj then answer ++ [⟨OpTag.insert, i, m.besti, j, m.bestj⟩]
    else answer
  let i2 := m.besti + m.size
  let j2 := m.bestj + m.size
  let answer :=
    if m.size ≠ 0 then answer ++ [⟨OpTag.equal, m.besti, i2, m.bestj, j2⟩] else answer
  (i2, j2, answer)

/-- `SequenceMatcher.get_opcodes`. -/
def getOpcodes (a b : List α) : List Opcode :=
  ((getMatchingBlocks a b).foldl opcodesStep (0, 0, [])).2.2

/-- Clamp the leading equal opcode to at most `n` context lines
(`codes[0] = tag, max(i1, i2-n), i2, max(j1, j2-n), j2`). -/
def clampFirst (n : Nat) : List Opcode → List Opcode
  | [] => []
  | c :: rest =>
    if c.tag = OpTag.equal then
      ⟨c.tag, max c.i1 (c.i2 - n), c.i2, max c.j1 (c.j2 - n), c.j2⟩ :: rest
    else c :: rest

/-- Clamp the trailing equal opcode to at most `n` context lines
(`codes[-1] = tag, i1, min(i2, i1+n), j1, min(j2, j1+n)`). -/
def clampLast (n : Nat) (codes : List Opcode) : List Opcode :=
  match codes.getLast? with
  | none => []
  | some c =>
    if c.tag = OpTag.equal then
      codes.dropLast ++ [⟨c.tag, c.i1, min c.i2 (c.i1 + n), c.j1, min c.j2 (c.j1 + n)⟩]
    else codes

/-- The grouping loop of `get_grouped_opcodes`: a large interior equal run
(more than `2n` lines) closes the current group with a clamped head and
starts the next group with a clamped tail. -/
def groupStep (n : Nat) (st : List (List Opcode) × List Opcode) (c : Opcode) :
    List (List Opcode) × List Opcode :=
  if c.tag = OpTag.equal ∧ 2 * n < c.i2 - c.i1 then
    (st.1 ++ [st.2 ++ [⟨c.tag, c.i1, min c.i2 (c.i1 + n), c.j1, min c.j2 (c.j1 + n)⟩]],
      [⟨c.tag, max c.i1 (c.i2 - n), c.i2, max c.j1 (c.j2 - n), c.j2⟩])
  else (st.1, st.2 ++ [c])

/-- `SequenceMatcher.get_grouped_opcodes(n)`: opcode list (or the dummy
`[equal, 0, 1, 0, 1]` when empty), first/last clamping, then grouping;
a final group that is a single equal opcode is discarded. -/
def getGroupedOpcodes (a b : List α) (n : Nat) : List (List Opcode) :=
  let codes := getOpcodes a b
  let codes := if codes = [] then [⟨OpTag.equal, 0, 1, 0, 1⟩] else codes
  let codes := clampLast n (clampFirst n codes)
  let st := codes.foldl (groupStep n) ([], [])
  match st.2 with
  | [] => st.1
  | [c] => if c.tag = OpTag.equal then st.1 else st.1 ++ [[c]]
  | _ => st.1 ++ [st.2]

theorem extendLeft_guard_false (a b : List α) (alo blo fuel : Nat) (m : MatchBlock)
    (h : ¬(alo < m.besti ∧ blo < m.bestj ∧
      a.get? (m.besti - 1) = b.get? (m.bestj - 1))) :
    extendLeft a b alo blo fuel m = m := by
  cases fuel with
  | zero => rfl
  | succ f => rw [extendLeft, if_neg h]

theorem extendRight_guard_false (a b : List α) (ahi bhi fuel : Nat) (m : MatchBlock)
    (h : ¬(m.besti + m.size < ahi ∧ m.bestj + m.size < bhi ∧
      a.get? (m.besti + m.size) = b.get? (m.bestj + m.size))) :
    extendRight a b ahi bhi fuel m = m := by
  cases fuel with
  | zero => rfl
  | succ f => rw [extendRight, if_neg h]

/-- On an equal pair and an empty range, `find_longest_match` returns the
empty block at the range start. -/
theorem findLongestMatch_empty (a b : List α) (alo blo : Nat) :
    findLongestMatch a b alo alo blo blo = ⟨alo, blo, 0⟩ := by
  unfold findLongestMatch flmDP
  rw [Nat.sub_self]
  simp only [List.range'_zero, List.foldl_nil]
  rw [extendLeft_guard_false a b alo blo _ _ (by simp)]
  rw [extendRight_guard_false a b alo blo _ _ (by simp)]

/-- Row invariant of the `find_longest_match` dynamic programme on a
self-comparison: after the inner loop over columns `0..c`, the best
block is the full diagonal prefix and the row is the diagonal-run
table. -/
theorem flmRow_self_aux (l : List α) (i : Nat) (prev : Nat → Nat)
    (hb : ∀ x, prev x ≤ min (x + 1) i) (hd : 1 ≤ i → prev (i - 1) = i) (c : Nat) :
    (((List.range' 0 c).foldl (flmStep l l prev i)
        (fun _ => 0, (⟨0, 0, i⟩ : MatchBlock))).2 =
      if i < c then (⟨0, 0, i + 1⟩ : MatchBlock) else ⟨0, 0, i⟩) ∧
    (∀ x, ((List.range' 0 c).foldl (flmStep l l prev i)
        (fun _ => 0, (⟨0, 0, i⟩ : MatchBlock))).1 x =
      if x < c then
        (if l.get? x = l.get? i then (if x = 0 then 0 else prev (x - 1)) + 1 else 0)
      else 0) := by
  induction c with
  | zero => simp
  | succ m ih =>
    obtain ⟨ihb, ihr⟩ := ih
    rw [range'_concat_one, List.foldl_append, List.foldl_cons, List.foldl_nil,
      show (0 : Nat) + m = m from by omega]
    set st := (List.range' 0 m).foldl (flmStep l l prev i)
      (fun _ => 0, (⟨0, 0, i⟩ : MatchBlock)) with hst
    by_cases hmatch : l.get? m = l.get? i
    · have hstep : flmStep l l prev i st m =
          (fun x => if x = m then (if m = 0 then 0 else prev (m - 1)) + 1 else st.1 x,
            if st.2.size < (if m = 0 then 0 else prev (m - 1)) + 1 then
              (⟨i + 1 - ((if m = 0 then 0 else prev (m - 1)) + 1),
                m + 1 - ((if m = 0 then 0 else prev (m - 1)) + 1),
                (if m = 0 then 0 else prev (m - 1)) + 1⟩ : MatchBlock)
            else st.2) := by
        rw [flmStep, if_pos hmatch]
      rw [hstep]
      dsimp only
      rcases Nat.lt_trichotomy i m with him | him | him
      · -- i < m : best stays, k cannot exceed i + 1
        have hm1 : 1 ≤ m := by omega
        have hk : (if m = 0 then 0 else prev (m - 1)) + 1 ≤ i + 1 := by
          rw [if_neg (by omega)]
          have := hb (m - 1)
          omega
        have hbsz : st.2 = ⟨0, 0, i + 1⟩ := by rw [ihb, if_pos him]
        constructor
        · rw [hbsz]
          simp only []
          rw [if_neg (by omega), if_pos (by omega)]
        · intro x
          by_cases hxm : x = m
          · subst hxm
            simp only [List.get?_eq_getElem?] at hmatch
            simp [hmatch, Nat.lt_succ_self]
          · rw [if_neg hxm, ihr x]
            by_cases hx : x < m
            · rw [if_pos hx, if_pos (show x < m + 1 from by omega)]
            · rw [if_neg hx, if_neg (show ¬x < m + 1 from by omega)]
      · -- i = m : the diagonal extends the best block to i + 1
        subst him
        have hk : (if i = 0 then 0 else prev (i - 1)) + 1 = i + 1 := by
          by_cases hi0 : i = 0
          · subst hi0
            simp
          · rw [if_neg hi0, hd (by omega)]
        have hbsz : st.2 = ⟨0, 0, i⟩ := by rw [ihb, if_neg (by omega)]
        constructor
        · rw [hbsz, hk]
          simp only []
          rw [if_pos (by omega), if_pos (by omega)]
          congr 1 <;> omega
        · intro x
          by_cases hxm : x = i
          · subst hxm
            simp only [List.get?_eq_getElem?] at hmatch
            simp [hmatch, Nat.lt_succ_self]
          · rw [if_neg hxm, ihr x]
            by_cases hx : x < i
            · rw [if_pos hx, if_pos (show x < i + 1 from by omega)]
            · rw [if_neg hx, if_neg (show ¬x < i + 1 from by omega)]
      · -- m < i : k at most i, best stays at size i
        have hk : (if m = 0 then 0 else prev (m - 1)) + 1 ≤ i := by
          by_cases hm0 : m = 0
          · rw [if_pos hm0]
            omega
          · rw [if_neg hm0]
            have := hb (m - 1)
            omega
        have hbsz : st.2 = ⟨0, 0, i⟩ := by rw [ihb, if_neg (by omega)]
        constructor
        · rw [hbsz]
          simp only []
          rw [if_neg (by omega), if_neg (by omega)]
        · intro x
          by_cases hxm : x = m
          · subst hxm
            simp only [List.get?_eq_getElem?] at hmatch
            simp [hmatch, Nat.lt_succ_self]
          · rw [if_neg hxm, ihr x]
            by_cases hx : x < m
            · rw [if_pos hx, if_pos (show x < m + 1 from by omega)]
            · rw [if_neg hx, if_neg (show ¬x < m + 1 from by omega)]
    · have hstep : flmStep l l prev i st m = st := by
        rw [flmStep, if_neg hmatch]
      rw [hstep]
      have him : ¬i = m := fun h => hmatch (by rw [h])
      constructor
      · rw [ihb]
        by_cases hi : i < m
        · rw [if_pos hi, if_pos (by omega)]
        · rw [if_neg hi, if_neg (by omega)]
      · intro x
        rw [ihr x]
        by_cases hxm : x = m
        · subst hxm
          rw [if_neg (show ¬x < x from by omega),
            if_pos (show x < x + 1 from by omega), if_neg hmatch]
        · by_cases hx : x < m
          · rw [if_pos hx, if_pos (show x < m + 1 from by omega)]
          · rw [if_neg hx, if_neg (show ¬x < m + 1 from by omega)]

/-- The dynamic programme on a self-comparison finds the whole diagonal. -/
theorem flmDP_self (l : List α) :
    flmDP l l 0 l.length 0 l.length = ⟨0, 0, l.length⟩ := by
  unfold flmDP
  rw [Nat.sub_zero]
  suffices h : ∀ m, m ≤ l.length →
      ((List.range' 0 m).foldl
        (fun acc i => flmRow l l 0 l.length acc.1 acc.2 i)
        (fun _ => 0, (⟨0, 0, 0⟩ : MatchBlock))).2 = ⟨0, 0, m⟩ ∧
      (∀ x, ((List.range' 0 m).foldl
        (fun acc i => flmRow l l 0 l.length acc.1 acc.2 i)
        (fun _ => 0, (⟨0, 0, 0⟩ : MatchBlock))).1 x ≤ min (x + 1) m) ∧
      (1 ≤ m → ((List.range' 0 m).foldl
        (fun acc i => flmRow l l 0 l.length acc.1 acc.2 i)
        (fun _ => 0, (⟨0, 0, 0⟩ : MatchBlock))).1 (m - 1) = m) by
    exact (h l.length le_rfl).1
  intro m
  induction m with
  | zero =>
    intro _
    refine ⟨rfl, fun x => by simp, by omega⟩
  | succ m ih =>
    intro hm1
    have hmn : m < l.length := by omega
    obtain ⟨ihb, ihbound, ihdiag⟩ := ih (by omega)
    rw [range'_concat_one, List.foldl_append, List.foldl_cons, List.foldl_nil]
    rw [show (0 : Nat) + m = m from by omega]
    set st := (List.range' 0 m).foldl
      (fun acc i => flmRow l l 0 l.length acc.1 acc.2 i)
      (fun _ => 0, (⟨0, 0, 0⟩ : MatchBlock)) with hst
    have hrow := flmRow_self_aux l m st.1 ihbound ihdiag l.length
    have hrw : flmRow l l 0 l.length st.1 st.2 m =
        (List.range' 0 l.length).foldl (flmStep l l st.1 m)
          (fun _ => 0, (⟨0, 0, m⟩ : MatchBlock)) := by
      rw [flmRow, Nat.sub_zero, ihb]
    refine ⟨?_, ?_, ?_⟩
    · rw [hrw, hrow.1, if_pos hmn]
    · intro x
      rw [hrw, hrow.2 x]
      by_cases hx : x < l.length
      · rw [if_pos hx]
        by_cases hmt : l.get? x = l.get? m
        · rw [if_pos hmt]
          by_cases hx0 : x = 0
          · subst hx0
            simp
          · rw [if_neg hx0]
            have := ihbound (x - 1)
            omega
        · rw [if_neg hmt]
          omega
      · rw [if_neg hx]
        omega
    · intro _
      rw [hrw]
      simp only [Nat.add_sub_cancel]
      rw [hrow.2 m, if_pos hmn, if_pos rfl]
      by_cases hm0 : m = 0
      · subst hm0
        simp
      · rw [if_neg hm0, ihdiag (by omega)]

/-- `find_longest_match` on a self-comparison returns the whole range:
the extension loops receive zero fuel and return immediately. -/
theorem findLongestMatch_self (l : List α) :
    findLongestMatch l l 0 l.length 0 l.length = ⟨0, 0, l.length⟩ := by
  unfold findLongestMatch
  rw [flmDP_self]
  dsimp only
  rw [extendLeft_guard_false l l 0 0 0 ⟨0, 0, l.length⟩ (by simp)]
  apply extendRight_guard_false
  simp

/-- `matchingBlocksAux` on a self-comparison yields the one full block. -/
theorem matchingBlocksAux_self (l : List α) (hn : l.length ≠ 0) (fuel : Nat)
    (hf : 1 ≤ fuel) :
    matchingBlocksAux l l fuel 0 l.length 0 l.length = [⟨0, 0, l.length⟩] := by
  cases fuel with
  | zero => omega
  | succ f =>
    rw [matchingBlocksAux, findLongestMatch_self]
    simp only [hn, if_false]
    have he1 : matchingBlocksAux l l f 0 0 0 0 = [] := by
      cases f with
      | zero => rfl
      | succ g =>
        rw [matchingBlocksAux, findLongestMatch_empty]
        simp
    have he2 : matchingBlocksAux l l f l.length l.length l.length l.length = [] := by
      cases f with
      | zero => rfl
      | succ g =>
        rw [matchingBlocksAux, findLongestMatch_empty]
        simp
    simp [Nat.zero_add, he1, he2]

/-- `get_matching_blocks` on a self-comparison: the full block plus the
sentinel (only the sentinel for the empty sequence). -/
theorem getMatchingBlocks_self (l : List α) :
    getMatchingBlocks l l =
      if l.length = 0 then [⟨0, 0, 0⟩]
      else [⟨0, 0, l.length⟩, ⟨l.length, l.length, 0⟩] := by
  by_cases hn : l.length = 0
  · rw [if_pos hn]
    unfold getMatchingBlocks
    rw [hn]
    rfl
  · rw [if_neg hn]
    unfold getMatchingBlocks
    rw [matchingBlocksAux_self l hn _ (by omega)]
    rw [mergeAdjacent]
    simp only [Nat.add_zero, Nat.zero_add, if_pos]
    rw [mergeAdjacent]
    rw [if_neg hn]
    simp

/-- `SequenceMatcher.ratio` of a sequence against itself is exactly 1. -/
theorem ratioVal_self (l : List α) : ratioVal l l = 1 := by
  unfold ratioVal
  by_cases hn : l.length = 0
  · simp [hn]
  · rw [getMatchingBlocks_self, if_neg hn]
    simp only [List.map_cons, List.map_nil, List.sum_cons, List.sum_nil]
    rw [if_neg (by omega)]
    rw [Rat.mkRat_eq_div]
    rw [div_eq_one_iff_eq (by
      have hp : 0 < l.length := Nat.pos_of_ne_zero hn
      have : (0 : ℚ) < (l.length : ℚ) + l.length := by
        have : (0 : ℚ) < (l.length : ℚ) := by exact_mod_cast hp
        linarith
      push_cast
      linarith)]
    push_cast
    ring

end Difflib

namespace Text

open Difflib

/-- Binary-detection sample size (`text._BINARY_SAMPLE_BYTES`). -/
def BINARY_SAMPLE_BYTES : Nat := 8192

/-- Null-byte check on the first 8192 bytes (`TextComparator._is_binary`). -/
def isBinary (data : List Nat) : Bool :=
  (data.take BINARY_SAMPLE_BYTES).contains 0

/-- Continuation-byte test for UTF-8 decoding. -/
def isCont (b : Nat) : Bool := 128 ≤ b ∧ b ≤ 191

/-- UTF-8 decoding with the `errors="replace"` policy of `bytes.decode`
(the comparator's default): every maximal ill-formed subsequence is
replaced by U+FFFD (65533).  Embedded from the standard UTF-8 coding
rules used by the Python codec (`text.py` decodes with
`encoding="utf-8", errors="replace"`). -/
def utf8DecodeReplace : List Nat → List Nat
  | [] => []
  | b :: rest =>
    if b < 128 then b :: utf8DecodeReplace rest
    else if 194 ≤ b ∧ b ≤ 223 then
      match rest with
      | [] => [65533]
      | c :: rest2 =>
        if isCont c then ((b - 192) * 64 + (c - 128)) :: utf8DecodeReplace rest2
        else 65533 :: utf8DecodeReplace (c :: rest2)
    else if 224 ≤ b ∧ b ≤ 239 then
      match rest with
      | [] => [65533]
      | c :: rest2 =>
        if (b = 224 ∧ 160 ≤ c ∧ c ≤ 191) ∨ (b = 237 ∧ 128 ≤ c ∧ c ≤ 159) ∨
            (224 < b ∧ b ≠ 237 ∧ isCont c) then
          match rest2 with
          | [] => [65533]
          | d :: rest3 =>
            if isCont d then
              ((b - 224) * 4096 + (c - 128) * 64 + (d - 128)) :: utf8DecodeReplace rest3
            else 65533 :: utf8DecodeReplace (d :: rest3)
        else 65533 :: utf8DecodeReplace (c :: rest2)
    else if 240 ≤ b ∧ b ≤ 244 then
      match rest with
      | [] => [65533]
      | c :: rest2 =>
        if (b = 240 ∧ 144 ≤ c ∧ c ≤ 191) ∨ (b = 244 ∧ 128 ≤ c ∧ c ≤ 143) ∨
            (240 < b ∧ b < 244 ∧ isCont c) then
          match rest2 with
          | [] => [65533]
          | d :: rest3 =>
            if isCont d then
              match rest3 with
              | [] => [65533]
              | e :: rest4 =>
                if isCont e then
                  ((b - 240) * 262144 + (c - 128) * 4096 + (d - 128) * 64 + (e - 128)) ::
                    utf8DecodeReplace rest4
                else 65533 :: utf8DecodeReplace (e :: rest4)
            else 65533 :: utf8DecodeReplace (d :: rest3)
        else 65533 :: utf8DecodeReplace (c :: rest2)
    else 65533 :: utf8DecodeReplace rest

/-- Line-break code points recognised by `str.splitlines`. -/
def isLineBreak (c : Nat) : Bool :=
  c = 10 ∨ c = 13 ∨ c = 11 ∨ c = 12 ∨ c = 28 ∨ c = 29 ∨ c = 30 ∨ c = 133 ∨
    c = 8232 ∨ c = 8233

/-- `str.splitlines(keepends=True)` on a code-point list: each line keeps
its terminator; `\r\n` stays together; a final unterminated line is kept. -/
def splitLinesAux : List Nat → List Nat → List (List Nat)
  | [], acc => if acc = [] then [] else [acc.reverse]
  | 13 :: 10 :: rest, acc => (acc.reverse ++ [13, 10]) :: splitLinesAux rest []
  | c :: rest, acc =>
    if isLineBreak c then (acc.reverse ++ [c]) :: splitLinesAux rest []
    else splitLinesAux rest (c :: acc)

/-- Split decoded text into terminator-keeping lines. -/
def splitLines (s : List Nat) : List (List Nat) := splitLinesAux s []

/-- Enumerated slice `enumerate(lines[i1:i2])`: pairs `(idx, line)` with
`idx` starting at 0, clamped to the list length like Python slicing. -/
def sliceEnum (lines : List (List Nat)) (i1 i2 : Nat) : List (Nat × List Nat) :=
  ((lines.drop i1).take (i2 - i1)).enum

/-- Expansion of a single opcode into `TextChange` entries: the body of
the `for tag, i1, i2, j1, j2 in group` loop of
`TextComparator._build_changes`. -/
def changesForOpcode (L R : List (List Nat)) (c : Opcode) : List TextChange :=
  match c.tag with
  | OpTag.equal =>
    (sliceEnum L c.i1 c.i2).map fun p =>
      ⟨ChangeType.equal, p.2, some (c.i1 + p.1 + 1), some (c.j1 + p.1 + 1)⟩
  | OpTag.delete =>
    (sliceEnum L c.i1 c.i2).map fun p =>
      ⟨ChangeType.delete, p.2, some (c.i1 + p.1 + 1), none⟩
  | OpTag.insert =>
    (sliceEnum R c.j1 c.j2).map fun p =>
      ⟨ChangeType.insert, p.2, none, some (c.j1 + p.1 + 1)⟩
  | OpTag.replace =>
    ((sliceEnum L c.i1 c.i2).map fun p =>
      ⟨ChangeType.delete, p.2, some (c.i1 + p.1 + 1), none⟩) ++
    ((sliceEnum R c.j1 c.j2).map fun p =>
      ⟨ChangeType.insert, p.2, none, some (c.j1 + p.1 + 1)⟩)

/-- `TextComparator._build_changes`: the opcodes of a group expanded in
order (the Python loop appends each opcode's entries to one list). -/
def buildChanges (group : List Opcode) (L R : List (List Nat)) : List TextChange :=
  (group.map (changesForOpcode L R)).flatten

/-- `TextComparator._build_hunks` for one opcode group: header fields from
the first and last opcode, changes from `_build_changes`.  Groups
produced by `get_grouped_opcodes` are never empty; the empty case is
unreachable there. -/
def buildHunk (L R : List (List Nat)) (group : List Opcode) : Option Hunk :=
  match group with
  | [] => none
  | first :: rest =>
    let last := rest.getLastD first
    some
      { start_left := first.i1 + 1
        count_left := last.i2 - first.i1
        start_right := first.j1 + 1
        count_right := last.j2 - first.j1
        changes := buildChanges (first :: rest) L R }

/-- `TextComparator._build_hunks`: one hunk per grouped-opcode group. -/
def buildHunks (contextLines : Nat) (L R : List (List Nat)) : List Hunk :=
  (getGroupedOpcodes L R contextLines).filterMap (buildHunk L R)

/-- `TextComparator._compare_binary`: byte equality only, no hunks. -/
def compareBinary (relativePath : String) (leftPath rightPath : String)
    (leftBytes rightBytes : List Nat) : FileComparison :=
  if leftBytes = rightBytes then
    { relative_path := relativePath
      status := FileStatus.identical
      left_path := some leftPath
      right_path := some rightPath
      similarity := some 1 }
  else
    { relative_path := relativePath
      status := FileStatus.modified
      left_path := some leftPath
      right_path := some rightPath
      similarity := none }

/-- `TextComparator._compare_text`: decode, split into lines, compute the
matcher ratio, short-circuit to identical at ratio 1, otherwise build
hunks. -/
def compareText (contextLines : Nat) (relativePath : String)
    (leftPath rightPath : String) (leftBytes rightBytes : List Nat) : FileComparison :=
  let leftLines := splitLines (utf8DecodeReplace leftBytes)
  let rightLines := splitLines (utf8DecodeReplace rightBytes)
  let similarity := ratioVal leftLines rightLines
  if similarity = 1 then
    { relative_path := relativePath
      status := FileStatus.identical
      left_path := some leftPath
      right_path := some rightPath
      similarity := some 1 }
  else
    { relative_path := relativePath
      status := FileStatus.modified
      left_path := some leftPath
      right_path := some rightPath
      hunks := buildHunks contextLines leftLines rightLines
      similarity := some similarity }

/-- `TextComparator.compare` on already-read byte contents: an empty
`relativePath` defaults to the left file's basename (`left.name`). -/
def compareBytes (contextLines : Nat) (relativePath : String)
    (leftPath rightPath : String) (leftBytes rightBytes : List Nat) : FileComparison :=
  let rel := if relativePath = "" then pathName leftPath else relativePath
  if isBinary leftBytes ∨ isBinary rightBytes then
    compareBinary rel leftPath rightPath leftBytes rightBytes
  else
    compareText contextLines rel leftPath rightPath leftBytes rightBytes

end Text

namespace Filtering

/-- Immutable configuration for file filtering (`filtering.FilterConfig`). -/
structure FilterConfig where
  respect_gitignore : Bool := true
  include_hidden : Bool := false
  include_patterns : List String := []
  exclude_patterns : List String := []
deriving DecidableEq, Repr

/-- Join a relative directory and name with the POSIX separator
(`filtering._join_posix`).  Relative paths are character lists (Python
`str` values) so that every operation below is computable by kernel
reduction. -/
def joinPosix (directory name : List Char) : List Char :=
  if directory = [] then name else directory ++ '/' :: name

/-- `"/".join(parts)` on character lists. -/
def joinSegs (segs : List (List Char)) : List Char :=
  (segs.intersperse ['/']).flatten

/-- All ancestor directory prefixes of a relative path
(`filtering._ancestor_dirs`): for `a/b/c.txt` this is `["", "a", "a/b"]`. -/
def ancestorDirs (relPath : List Char) : List (List Char) :=
  let parts := splitOnSlash relPath
  [] :: (List.range (parts.length - 1)).map fun i => joinSegs (parts.take (i + 1))

/-- Fuel-indexed shell-glob matcher with `*` and `?` (the `[...]`
classes of `fnmatch` are not modelled; no claim uses them).  `*` matches
any character run, including `/`, exactly as `fnmatch` translates it.
Each recursive call shrinks `pat.length + s.length`, so the fuel of
`globMatch` below never runs out. -/
def globMatchAux : Nat → List Char → List Char → Bool
  | 0, _, _ => false
  | fuel + 1, pat, s =>
    match pat, s with
    | [], [] => true
    | '*' :: ps, s =>
      globMatchAux fuel ps s ||
        (match s with
         | [] => false
         | _ :: s2 => globMatchAux fuel ('*' :: ps) s2)
    | '?' :: ps, _ :: s2 => globMatchAux fuel ps s2
    | c :: ps, d :: s2 => c = d && globMatchAux fuel ps s2
    | _, _ => false

/-- Shell-style glob matching (`fnmatch` translation of `*` and `?`). -/
def globMatch (pat s : List Char) : Bool :=
  globMatchAux (pat.length + s.length + 1) pat s

/-- `fnmatch.fnmatch` on the whole relative path (the include/exclude
pattern language of `FileFilter`). -/
def fnmatchPath (relPath : List Char) (pat : String) : Bool :=
  globMatch pat.toList relPath

/-- One parsed gitignore pattern: negation flag, directory-only flag and
a glob body. -/
structure GPat where
  negated : Bool
  dirOnly : Bool
  glob : List Char
deriving DecidableEq, Repr

/-- Parse one gitignore line: blank lines and `#` comments yield nothing,
a leading `!` negates, a trailing `/` restricts to directories.
Modelled from the gitignore pattern syntax implemented by the
`pathspec.GitIgnoreSpec` dependency. -/
def parseGitignoreLine (line : List Char) : Option GPat :=
  match line with
  | [] => none
  | '#' :: _ => none
  | _ =>
    let neg := match line with | '!' :: _ => true | _ => false
    let rest := if neg then line.drop 1 else line
    let dirOnly := decide (rest.getLast? = some '/')
    let pat := if dirOnly then rest.dropLast else rest
    some ⟨neg, dirOnly, pat⟩

/-- Parse a gitignore file (`GitIgnoreSpec.from_lines`). -/
def parseGitignore (lines : List (List Char)) : List GPat :=
  lines.filterMap parseGitignoreLine

/-- Whether one gitignore pattern matches a path.  A slash-free pattern
matches at any depth: it is tested against every path segment
(matching a directory segment also matches everything below it, as in
git).  A directory-only pattern needs the matched segment to be a
non-final segment or the path itself to be a directory.  Modelled from
the gitignore semantics of `pathspec` for slash-free patterns (no claim
uses a pattern containing `/`). -/
def gpatMatches (p : GPat) (segs : List (List Char)) (isDir : Bool) : Bool :=
  segs.enum.any fun e =>
    globMatch p.glob e.2 &&
      (!p.dirOnly || (e.1 + 1 < segs.length || isDir))

/-- `GitIgnoreSpec.match_file`: the last matching pattern decides; a
negated pattern un-ignores.  Returns whether the path is ignored. -/
def specMatchFile (pats : List GPat) (localPath : List Char) (isDir : Bool) : Bool :=
  let segs := splitOnSlash localPath
  match pats.foldl
      (fun acc p => if gpatMatches p segs isDir then some (!p.negated) else acc) none with
  | some true => true
  | _ => false

/-- The ancestor loop of `FileFilter._is_gitignored`: walk the ancestor
prefixes from the root downwards and return `true` at the first
applicable spec that matches (`return True` in the source). -/
def isGitignoredAux (specs : List (List Char × List GPat)) (relPath : List Char)
    (isDir : Bool) : List (List Char) → Bool
  | [] => false
  | anc :: rest =>
    match List.lookup anc specs with
    | none => isGitignoredAux specs relPath isDir rest
    | some pats =>
      let localPath := if anc = [] then relPath else relPath.drop (anc.length + 1)
      if specMatchFile pats localPath isDir then true
      else isGitignoredAux specs relPath isDir rest

/-- `FileFilter._is_gitignored`. -/
def isGitignored (specs : List (List Char × List GPat)) (relPath : List Char)
    (isDir : Bool) : Bool :=
  if specs = [] then false
  else isGitignoredAux specs relPath isDir (ancestorDirs relPath)

/-- Hidden-name check (`FileFilter._is_hidden`): the name starts with a
dot. -/
def isHiddenName (name : List Char) : Bool :=
  match name with
  | '.' :: _ => true
  | _ => false

/-- `FileFilter._matches_include`: true when no patterns are defined. -/
def matchesInclude (cfg : FilterConfig) (relPath : List Char) : Bool :=
  if cfg.include_patterns = [] then true
  else cfg.include_patterns.any (fnmatchPath relPath)

/-- `FileFilter._matches_exclude`: false when no patterns are defined. -/
def matchesExclude (cfg : FilterConfig) (relPath : List Char) : Bool :=
  if cfg.exclude_patterns = [] then false
  else cfg.exclude_patterns.any (fnmatchPath relPath)

/-- A directory tree as a chain of named entries: files carry their text
lines (only the lines of `.gitignore` files are ever consulted by
filtering), directory entries carry their own entry chain. -/
inductive FSTree where
  | nilDir
  | fileEntry (name : List Char) (lines : List (List Char)) (rest : FSTree)
  | dirEntry (name : List Char) (sub : FSTree) (rest : FSTree)

/-- The `.gitignore` file of one directory level, when present
(`(dirpath / GITIGNORE_FILENAME).is_file()` followed by `read_text`). -/
def dirGitignore : FSTree → Option (List (List Char))
  | FSTree.nilDir => none
  | FSTree.fileEntry name lines rest =>
    if name = '.' :: 'g' :: 'i' :: 't' :: 'i' :: 'g' :: 'n' :: 'o' :: 'r' :: 'e' :: [] then some lines
    else dirGitignore rest
  | FSTree.dirEntry _ _ rest => dirGitignore rest

/-- The four per-file filter layers applied inside the walk loop of
`FileFilter.scan`: hidden, gitignore, include glob, exclude glob. -/
def fileLayers (cfg : FilterConfig) (specs : List (List Char × List GPat))
    (relDir : List Char) (name : List Char) : Option (List Char) :=
  let relPath := joinPosix relDir name
  if !cfg.include_hidden && isHiddenName name then none
  else if cfg.respect_gitignore && isGitignored specs relPath false then none
  else if !matchesInclude cfg relPath then none
  else if matchesExclude cfg relPath then none
  else some relPath

/-- The directory-prune decision of `FileFilter.scan`: a subdirectory
survives the hidden layer and the gitignore layer (matched with the
directory marker). -/
def dirSurvives (cfg : FilterConfig) (specs : List (List Char × List GPat))
    (relDir : List Char) (name : List Char) : Bool :=
  (cfg.include_hidden || !isHiddenName name) &&
    (!cfg.respect_gitignore || !isGitignored specs (joinPosix relDir name) true)

/-- The recursive walk of `FileFilter.scan` over one directory's entry
chain.  Mirrors `os.walk` with top-down pruning: every file entry runs
the four layers, every surviving directory entry is entered with its own
`.gitignore` spec appended (the source accumulates specs in one
dictionary keyed by relative directory, but `_is_gitignored` only ever
consults ancestor keys and `os.walk` visits ancestors first, so scoped
accumulation is observationally identical).  The source prunes, sorts
and descends after listing files; the final lexicographic sort in `scan`
makes the traversal order unobservable, so entries are processed in
chain order here. -/
def walkLevel (cfg : FilterConfig) (specs : List (List Char × List GPat)) :
    List Char → FSTree → List (List Char)
  | _, FSTree.nilDir => []
  | relDir, FSTree.fileEntry name _ rest =>
    (fileLayers cfg specs relDir name).toList ++ walkLevel cfg specs relDir rest
  | relDir, FSTree.dirEntry name sub rest =>
    (if dirSurvives cfg specs relDir name then
      let childRel := joinPosix relDir name
      let childSpecs :=
        if cfg.respect_gitignore then
          match dirGitignore sub with
          | some glines => specs ++ [(childRel, parseGitignore glines)]
          | none => specs
        else specs
      walkLevel cfg childSpecs childRel sub
    else []) ++ walkLevel cfg specs relDir rest

/-- `FileFilter.scan` on a tree value: read the root's own `.gitignore`,
walk, then sort lexicographically (`result.sort()`). -/
def scan (cfg : FilterConfig) (t : FSTree) : List (List Char) :=
  let specs :=
    if cfg.respect_gitignore then
      match dirGitignore t with
      | some glines => [(([] : List Char), parseGitignore glines)]
      | none => []
    else []
  sortLe charListLe (walkLevel cfg specs [] t)

end Filtering

/-- Path concatenation `root / rel_path` on POSIX-style strings; the
relative part is a character list as produced by scanning. -/
def pathJoin (root : String) (rel : List Char) : String :=
  ⟨root.toList ++ '/' :: rel⟩

namespace Structure

/-- `StructureComparator.compare` after both scans: sorted union of the
two relative-path sets, classified by membership.  `set(...)` is modelled
by `dedup`; membership in the original lists is equivalent. -/
def structureCompare (leftRoot rightRoot : String)
    (leftPaths rightPaths : List (List Char)) : List FileComparison :=
  let allPaths := sortLe charListLe ((leftPaths ++ rightPaths).dedup)
  allPaths.map fun rel =>
    if rel ∈ leftPaths then
      if rel ∈ rightPaths then
        { relative_path := ⟨rel⟩
          status := FileStatus.identical
          left_path := some (pathJoin leftRoot rel)
          right_path := some (pathJoin rightRoot rel) }
      else
        { relative_path := ⟨rel⟩
          status := FileStatus.removed
          left_path := some (pathJoin leftRoot rel)
          right_path := none }
    else
      { relative_path := ⟨rel⟩
        status := FileStatus.added
        left_path := none
        right_path := some (pathJoin rightRoot rel) }

end Structure

/-- The filesystem a run observes: existence and directory predicates,
the tree under a directory path, and the byte contents of a file path. -/
structure FS where
  pathExists : String → Bool
  isDir : String → Bool
  tree : String → Filtering.FSTree
  fileBytes : String → List Nat

/-- `Path.is_file()`: exists and is not a directory. -/
def FS.isFile (fs : FS) (p : String) : Bool :=
  fs.pathExists p && !fs.isDir p

namespace Content

/-- `ContentComparator._validate_file`. -/
def validateFile (fs : FS) (p : String) (label : String) : Except PyError Unit :=
  if !fs.pathExists p then
    Except.error (PyError.fileNotFoundError (label ++ " path does not exist: " ++ p))
  else if fs.isDir p then
    Except.error (PyError.isADirectoryError
      (label ++ " path is a directory, expected a file: " ++ p))
  else Except.ok ()

/-- `ContentComparator.compare` with an abstract digest function
(`hashlib` streaming in 64 KiB chunks concatenates to hashing the whole
byte string; the digest function is the configuration parameter). -/
def contentCompare (hashFn : List Nat → String) (fs : FS)
    (leftPath rightPath : String) (relativePath : String) :
    Except PyError FileComparison := do
  let rel := if relativePath = "" then pathName leftPath else relativePath
  let _ ← validateFile fs leftPath "Left"
  let _ ← validateFile fs rightPath "Right"
  let leftHash := hashFn (fs.fileBytes leftPath)
  let rightHash := hashFn (fs.fileBytes rightPath)
  if leftHash = rightHash then
    pure
      { relative_path := rel
        status := FileStatus.identical
        left_path := some leftPath
        right_path := some rightPath
        content_hash_left := some leftHash
        content_hash_right := some rightHash
        similarity := some 1 }
  else
    pure
      { relative_path := rel
        status := FileStatus.modified
        left_path := some leftPath
        right_path := some rightPath
        content_hash_left := some leftHash
        content_hash_right := some rightHash
        similarity := none }

end Content

namespace Pipeline

open Filtering Structure Content

/-- `FileFilter.scan` including the root-validation failure
(`NotADirectoryError` when the root is missing or not a directory). -/
def scanRoot (cfg : FilterConfig) (fs : FS) (root : String) :
    Except PyError (List (List Char)) :=
  if !fs.isDir root then
    Except.error (PyError.notADirectoryError ("Not a directory: " ++ root))
  else Except.ok (Filtering.scan cfg (fs.tree root))

/-- The structure pass of the pipeline: scan both roots, then set-diff. -/
def structurePass (cfg : FilterConfig) (fs : FS) (left right : String) :
    Except PyError (List FileComparison) := do
  let leftPaths ← scanRoot cfg fs left
  let rightPaths ← scanRoot cfg fs right
  pure (structureCompare left right leftPaths rightPaths)

/-- `Comparator._resolve_depth`: explicit depth wins; otherwise both
directories give `structure`, both non-directories give `text`, and a
mixed pair raises `ValueError`. -/
def resolveDepth (explicitDepth : Option DiffDepth) (fs : FS)
    (left right : String) : Except PyError DiffDepth :=
  match explicitDepth with
  | some d => Except.ok d
  | none =>
    if fs.isDir left && fs.isDir right then Except.ok DiffDepth.structure'
    else if !fs.isDir left && !fs.isDir right then Except.ok DiffDepth.text
    else Except.error (PyError.valueError "Cannot compare a file with a directory")

/-- `TextComparator.compare` reading its two files from the filesystem. -/
def textCompareFs (contextLines : Nat) (fs : FS)
    (leftPath rightPath : String) (relativePath : String) : FileComparison :=
  Text.compareBytes contextLines relativePath leftPath rightPath
    (fs.fileBytes leftPath) (fs.fileBytes rightPath)

/-- `Comparator._run_content_pipeline`: a direct hash for a file pair,
otherwise a structure pass whose both-sided entries are replaced by
content comparisons. -/
def runContentPipeline (cfg : FilterConfig) (hashFn : List Nat → String)
    (fs : FS) (left right : String) : Except PyError (List FileComparison) :=
  if fs.isFile left && fs.isFile right then do
    let fc ← contentCompare hashFn fs left right ""
    pure [fc]
  else do
    let comps ← structurePass cfg fs left right
    comps.mapM fun fc =>
      match fc.left_path, fc.right_path with
      | some lp, some rp => contentCompare hashFn fs lp rp fc.relative_path
      | _, _ => pure fc

/-- `Comparator._run_text_pipeline`: a direct text diff for a file pair,
otherwise a structure pass whose both-sided entries are replaced by text
comparisons. -/
def runTextPipeline (cfg : FilterConfig) (contextLines : Nat) (fs : FS)
    (left right : String) : Except PyError (List FileComparison) :=
  if fs.isFile left && fs.isFile right then
    Except.ok [textCompareFs contextLines fs left right ""]
  else do
    let comps ← structurePass cfg fs left right
    pure (comps.map fun fc =>
      match fc.left_path, fc.right_path with
      | some lp, some rp => textCompareFs contextLines fs lp rp fc.relative_path
      | _, _ => fc)

/-- `Comparator._run_pipeline`. -/
def runPipeline (cfg : FilterConfig) (contextLines : Nat)
    (hashFn : List Nat → String) (fs : FS) (left right : String) :
    DiffDepth → Except PyError (List FileComparison)
  | DiffDepth.structure' => structurePass cfg fs left right
  | DiffDepth.content => runContentPipeline cfg hashFn fs left right
  | DiffDepth.text => runTextPipeline cfg contextLines fs left right

/-- `Comparator.compare`: existence validation, depth resolution, the
depth-selected pipeline, and aggregation into a `DiffResult`.
(`Path.resolve()` is the identity in this model: paths are taken as
already-resolved strings.) -/
def comparatorCompare (explicitDepth : Option DiffDepth) (cfg : FilterConfig)
    (contextLines : Nat) (hashFn : List Nat → String) (fs : FS)
    (left right : String) : Except PyError DiffResult :=
  if !fs.pathExists left then
    Except.error (PyError.fileNotFoundError ("Left path does not exist: " ++ left))
  else if !fs.pathExists right then
    Except.error (PyError.fileNotFoundError ("Right path does not exist: " ++ right))
  else do
    let depth ← resolveDepth explicitDepth fs left right
    let comps ← runPipeline cfg contextLines hashFn fs left right depth
    pure
      { left_root := left
        right_root := right
        depth := depth
        comparisons := comps
        stats := DiffStats.from_comparisons comps }

end Pipeline

instance {ε γ : Type} [DecidableEq ε] [DecidableEq γ] : DecidableEq (Except ε γ) := fun a b =>
  match a, b with
  | Except.error e1, Except.error e2 =>
    if h : e1 = e2 then isTrue (by rw [h])
    else isFalse (by intro hh; cases hh; exact h rfl)
  | Except.ok v1, Except.ok v2 =>
    if h : v1 = v2 then isTrue (by rw [h])
    else isFalse (by intro hh; cases hh; exact h rfl)
  | Except.error _, Except.ok _ => isFalse (by intro hh; cases hh)
  | Except.ok _, Except.error _ => isFalse (by intro hh; cases hh)

section Claims

open Filtering Structure Content Pipeline Difflib Text

/-- A one-directory filesystem used as a concrete witness input: `/d` is
a directory holding the single file `a.txt`; `/d/a.txt` and `/f` are
regular files. -/
def fsDirWitness : FS :=
  { pathExists := fun p => p = "/d" || p = "/d/a.txt" || p = "/f"
    isDir := fun p => p = "/d"
    tree := fun _ => FSTree.fileEntry "a.txt".toList [] FSTree.nilDir
    fileBytes := fun _ => [104, 105, 10] }

/-- C2: with no explicit depth and both paths existing, two directories
resolve to `structure` depth, two regular files resolve to `text` depth,
and a mixed file/directory pair makes `compare` fail with the
"cannot compare a file with a directory" `ValueError`, whichever side is
the directory. -/
theorem c2_depth_auto_detection (fs : FS) (cfg : FilterConfig)
    (contextLines : Nat) (hashFn : List Nat → String) (left right : String)
    (hl : fs.pathExists left = true) (hr : fs.pathExists right = true) :
    (fs.isDir left = true → fs.isDir right = true →
      ∃ res, comparatorCompare none cfg contextLines hashFn fs left right = Except.ok res ∧
        res.depth = DiffDepth.structure') ∧
    (fs.isDir left = false → fs.isDir right = false →
      ∃ res, comparatorCompare none cfg contextLines hashFn fs left right = Except.ok res ∧
        res.depth = DiffDepth.text) ∧
    (fs.isDir left ≠ fs.isDir right →
      comparatorCompare none cfg contextLines hashFn fs left right =
        Except.error (PyError.valueError "Cannot compare a file with a directory")) := by
  refine ⟨fun hdl hdr => ?_, fun hdl hdr => ?_, fun hmix => ?_⟩
  · simp [comparatorCompare, hl, hr, resolveDepth, hdl, hdr, runPipeline,
      structurePass, scanRoot, Except.ok.injEq, Bind.bind, Except.bind,
      Pure.pure, Except.pure]
  · simp [comparatorCompare, hl, hr, resolveDepth, hdl, hdr, runPipeline,
      runTextPipeline, FS.isFile, Bind.bind, Except.bind, Pure.pure, Except.pure]
  · cases hdl : fs.isDir left <;> cases hdr : fs.isDir right <;>
      simp [hdl, hdr] at hmix <;>
      simp [comparatorCompare, hl, hr, resolveDepth, hdl, hdr, Bind.bind, Except.bind]

/-- Witness for C2 at a concrete filesystem: `/d` is a directory and
`/f` a regular file, both existing. -/
theorem c2_depth_auto_detection_witness :
    fsDirWitness.pathExists "/f" = true ∧
    comparatorCompare none {} 3 (fun _ => "h") fsDirWitness "/f" "/d" =
      Except.error (PyError.valueError "Cannot compare a file with a directory") := by
  refine ⟨by decide, ?_⟩
  exact (c2_depth_auto_detection fsDirWitness {} 3 (fun _ => "h") "/f" "/d"
    (by decide) (by decide)).2.2 (by decide)

/-- Change type of every entry emitted for one opcode is equal, delete or
insert, matching the opcode's tag; `substitute` is never produced. -/
theorem changesForOpcode_no_substitute (L R : List (List Nat)) (op : Opcode) :
    ∀ c ∈ changesForOpcode L R op, c.change_type ≠ ChangeType.substitute := by
  intro c hc
  cases op with
  | mk tag i1 i2 j1 j2 =>
    cases tag <;> simp [changesForOpcode] at hc
    · rcases hc with ⟨p, w, _, rfl⟩ | ⟨p, w, _, rfl⟩ <;> simp
    · obtain ⟨p, w, _, rfl⟩ := hc; simp
    · obtain ⟨p, w, _, rfl⟩ := hc; simp
    · obtain ⟨p, w, _, rfl⟩ := hc; simp

/-- C1: the change sequence built from any opcode group contains no
`substitute` entry, every `replace` opcode expands to all left-side
delete entries (in left order) followed by all right-side insert entries
(in right order), and in that expansion an insert entry never precedes a
delete entry. -/
theorem c1_replace_decomposition (group : List Opcode) (L R : List (List Nat)) :
    (∀ c ∈ buildChanges group L R, c.change_type ≠ ChangeType.substitute) ∧
    (∀ op ∈ group, op.tag = OpTag.replace →
      changesForOpcode L R op =
        ((sliceEnum L op.i1 op.i2).map fun p =>
          ⟨ChangeType.delete, p.2, some (op.i1 + p.1 + 1), none⟩) ++
        ((sliceEnum R op.j1 op.j2).map fun p =>
          ⟨ChangeType.insert, p.2, none, some (op.j1 + p.1 + 1)⟩)) ∧
    (∀ op ∈ group, op.tag = OpTag.replace →
      ∀ (p q : Nat) (cp cq : TextChange), p < q →
        (changesForOpcode L R op)[p]? = some cp →
        (changesForOpcode L R op)[q]? = some cq →
        ¬(cp.change_type = ChangeType.insert ∧ cq.change_type = ChangeType.delete)) := by
  refine ⟨?_, ?_, ?_⟩
  · intro c hc
    simp only [buildChanges, List.mem_flatten, List.mem_map] at hc
    obtain ⟨_, ⟨op, _, rfl⟩, hcin⟩ := hc
    exact changesForOpcode_no_substitute L R op c hcin
  · intro op _ htag
    cases op with
    | mk tag i1 i2 j1 j2 => cases htag; rfl
  · intro op _ htag p q cp cq hpq hp hq ⟨hcp, hcq⟩
    cases op with
    | mk tag i1 i2 j1 j2 =>
      cases htag
      simp only [changesForOpcode] at hp hq
      set dl := (sliceEnum L i1 i2).map fun pr =>
        (⟨ChangeType.delete, pr.2, some (i1 + pr.1 + 1), none⟩ : TextChange) with hdl
      set il := (sliceEnum R j1 j2).map fun pr =>
        (⟨ChangeType.insert, pr.2, none, some (j1 + pr.1 + 1)⟩ : TextChange) with hil
      by_cases hqlt : q < dl.length
      · have hplt : p < dl.length := lt_trans hpq hqlt
        rw [List.getElem?_append_left hplt] at hp
        have : cp ∈ dl := List.getElem?_mem hp
        rw [hdl] at this
        simp only [List.mem_map] at this
        obtain ⟨_, _, rfl⟩ := this
        simp at hcp
      · rw [List.getElem?_append_right (Nat.le_of_not_lt hqlt)] at hq
        have : cq ∈ il := List.getElem?_mem hq
        rw [hil] at this
        simp only [List.mem_map] at this
        obtain ⟨_, _, rfl⟩ := this
        simp at hcq

/-- Witness for C1 at a concrete group holding one replace opcode over
one-line sides. -/
theorem c1_replace_decomposition_witness :
    (⟨OpTag.replace, 0, 1, 0, 1⟩ : Opcode) ∈ [(⟨OpTag.replace, 0, 1, 0, 1⟩ : Opcode)] ∧
    buildChanges [⟨OpTag.replace, 0, 1, 0, 1⟩] [[97, 10]] [[98, 10]] =
      [⟨ChangeType.delete, [97, 10], some 1, none⟩,
        ⟨ChangeType.insert, [98, 10], none, some 1⟩] := by
  have h := c1_replace_decomposition [⟨OpTag.replace, 0, 1, 0, 1⟩] [[97, 10]] [[98, 10]]
  refine ⟨by decide, ?_⟩
  have h2 := h.2.1 ⟨OpTag.replace, 0, 1, 0, 1⟩ (by decide) rfl
  simp only [buildChanges, List.map_cons, List.map_nil, List.flatten_cons,
    List.flatten_nil, List.append_nil]
  rw [h2]
  decide

theorem splitOnSlash_ne_nil (l : List Char) : splitOnSlash l ≠ [] := by
  induction l with
  | nil => simp [splitOnSlash]
  | cons c rest ih =>
    simp only [splitOnSlash]
    split
    · simp
    · cases h : splitOnSlash rest <;> simp

theorem splitOnSlash_append (a b : List Char) :
    splitOnSlash (a ++ '/' :: b) = splitOnSlash a ++ splitOnSlash b := by
  induction a with
  | nil => simp [splitOnSlash]
  | cons c a' ih =>
    by_cases hc : c = '/'
    · subst hc
      simp [splitOnSlash, ih]
    · simp only [List.cons_append, splitOnSlash, if_neg hc, List.append_eq]
      rw [ih]
      cases h : splitOnSlash a' with
      | nil => exact absurd h (splitOnSlash_ne_nil a')
      | cons h' t' => simp

theorem splitOnSlash_of_no_slash (n : List Char) (h : n.contains '/' = false) :
    splitOnSlash n = [n] := by
  induction n with
  | nil => simp [splitOnSlash]
  | cons c rest ih =>
    simp only [List.contains_cons, Bool.or_eq_false_iff] at h
    have hc : ¬c = '/' := by
      intro hcc
      subst hcc
      simp at h
    rw [splitOnSlash, if_neg hc, ih h.2]

theorem splitOnSlash_joinPosix (d n : List Char) (h : n.contains '/' = false) :
    splitOnSlash (Filtering.joinPosix d n) =
      if d = [] then [n] else splitOnSlash d ++ [n] := by
  unfold Filtering.joinPosix
  split
  · exact splitOnSlash_of_no_slash n h
  · rw [splitOnSlash_append, splitOnSlash_of_no_slash n h]

/-- Occurrence counting via an explicit predicate (used to state that a
path appears exactly once). -/
theorem countP_eq_of_nodup {α : Type} [DecidableEq α] (l : List α) (hl : l.Nodup)
    (p : α) : l.countP (fun x => decide (x = p)) = if p ∈ l then 1 else 0 := by
  induction l with
  | nil => simp
  | cons x xs ih =>
    have hx := List.nodup_cons.mp hl
    rw [List.countP_cons]
    by_cases hxp : x = p
    · subst hxp
      simp [hx.1, ih hx.2]
    · have hpx : ¬p = x := fun h => hxp h.symm
      simp [hxp, ih hx.2, hpx]

/-- C6: `StructureComparator.compare` yields every relative path of the
union of the two scans exactly once; each entry's status is identical,
added or removed, with `identical` exactly for paths present in both
scans; and the absent-side path is `None` exactly for added/removed
entries while identical entries carry both paths. -/
theorem c6_structure_partition (leftRoot rightRoot : String)
    (leftPaths rightPaths : List (List Char)) :
    (∀ p : List Char,
      (structureCompare leftRoot rightRoot leftPaths rightPaths).countP
          (fun fc => decide (fc.relative_path.toList = p)) =
        if p ∈ leftPaths ∨ p ∈ rightPaths then 1 else 0) ∧
    (∀ fc ∈ structureCompare leftRoot rightRoot leftPaths rightPaths,
      (fc.status = FileStatus.identical ∨ fc.status = FileStatus.added ∨
        fc.status = FileStatus.removed) ∧
      (fc.status = FileStatus.identical ↔
        fc.relative_path.toList ∈ leftPaths ∧ fc.relative_path.toList ∈ rightPaths) ∧
      (fc.left_path = none ↔ fc.status = FileStatus.added) ∧
      (fc.right_path = none ↔ fc.status = FileStatus.removed)) := by
  constructor
  · intro p
    have hcnt :
        (structureCompare leftRoot rightRoot leftPaths rightPaths).countP
            (fun fc => decide (fc.relative_path.toList = p)) =
          (sortLe charListLe ((leftPaths ++ rightPaths).dedup)).countP
            (fun rel => decide (rel = p)) := by
      simp only [structureCompare, List.countP_map]
      refine List.countP_congr fun rel _ => ?_
      by_cases h1 : rel ∈ leftPaths <;> by_cases h2 : rel ∈ rightPaths <;>
        simp [h1, h2, Function.comp]
    rw [hcnt, (sortLe_perm charListLe _).countP_eq,
      countP_eq_of_nodup _ (List.nodup_dedup _)]
    simp [List.mem_append]
  · intro fc hfc
    simp only [structureCompare, List.mem_map] at hfc
    obtain ⟨rel, _, rfl⟩ := hfc
    by_cases h1 : rel ∈ leftPaths <;> by_cases h2 : rel ∈ rightPaths <;>
      simp [h1, h2]

/-- Witness for C6 on the concrete scans `["a.txt"]` versus `["b.txt"]`. -/
theorem c6_structure_partition_witness :
    (structureCompare "/l" "/r" ["a.txt".toList] ["b.txt".toList]).countP
        (fun fc => decide (fc.relative_path.toList = "a.txt".toList)) = 1 ∧
    (⟨"a.txt", FileStatus.removed, some "/l/a.txt", none, [], none, none, none⟩ :
        FileComparison) ∈ structureCompare "/l" "/r" ["a.txt".toList] ["b.txt".toList] ∧
    ((⟨"a.txt", FileStatus.removed, some "/l/a.txt", none, [], none, none, none⟩ :
        FileComparison).right_path = none ↔
      (⟨"a.txt", FileStatus.removed, some "/l/a.txt", none, [], none, none, none⟩ :
        FileComparison).status = FileStatus.removed) := by
  have h := c6_structure_partition "/l" "/r" ["a.txt".toList] ["b.txt".toList]
  refine ⟨?_, by decide, ?_⟩
  · have h1 := h.1 "a.txt".toList
    simpa using h1
  · exact (h.2 _ (by decide)).2.2.2

/-- Well-formedness of a model tree: entry names contain no `/`
(guaranteed for real directory entries; path splitting is only faithful
under it). -/
def treeNamesOk : FSTree → Bool
  | FSTree.nilDir => true
  | FSTree.fileEntry name _ rest => !name.contains '/' && treeNamesOk rest
  | FSTree.dirEntry name sub rest =>
    !name.contains '/' && treeNamesOk sub && treeNamesOk rest

/-- Inversion of the four per-file layers: a produced path is the joined
relative path, the hidden guard was off and the exclude guard was off. -/
theorem fileLayers_eq_some (cfg : FilterConfig) (specs : List (List Char × List GPat))
    (relDir name p : List Char) (h : fileLayers cfg specs relDir name = some p) :
    p = joinPosix relDir name ∧
      (!cfg.include_hidden && isHiddenName name) = false ∧
      matchesExclude cfg p = false := by
  simp only [fileLayers] at h
  by_cases h1 : (!cfg.include_hidden && isHiddenName name) = true
  · rw [if_pos h1] at h
    cases h
  · rw [if_neg h1] at h
    by_cases h2 : (cfg.respect_gitignore &&
        isGitignored specs (joinPosix relDir name) false) = true
    · rw [if_pos h2] at h
      cases h
    · rw [if_neg h2] at h
      by_cases h3 : (!matchesInclude cfg (joinPosix relDir name)) = true
      · rw [if_pos h3] at h
        cases h
      · rw [if_neg h3] at h
        by_cases h4 : matchesExclude cfg (joinPosix relDir name) = true
        · rw [if_pos h4] at h
          cases h
        · rw [if_neg h4] at h
          cases h
          exact ⟨rfl, by simpa using h1, by simpa using h4⟩

/-- Hidden-layer invariant of the walk: when `include_hidden` is off, no
produced path has a hidden segment, whatever the ignore specs and the
include/exclude patterns say. -/
theorem walkLevel_hidden (cfg : FilterConfig) (hh : cfg.include_hidden = false)
    (t : FSTree) :
    ∀ (specs : List (List Char × List GPat)) (relDir : List Char),
      treeNamesOk t = true →
      (∀ s ∈ splitOnSlash relDir, isHiddenName s = false) →
      ∀ p ∈ walkLevel cfg specs relDir t, ∀ s ∈ splitOnSlash p, isHiddenName s = false := by
  induction t with
  | nilDir =>
    intro specs relDir _ _ p hp
    simp [walkLevel] at hp
  | fileEntry name lines rest ih =>
    intro specs relDir hok hrel p hp s hs
    simp only [treeNamesOk, Bool.and_eq_true] at hok
    simp only [walkLevel, List.mem_append] at hp
    rcases hp with hp | hp
    · cases hof : fileLayers cfg specs relDir name with
      | none =>
        rw [hof] at hp
        simp at hp
      | some q =>
        rw [hof] at hp
        simp only [Option.toList_some, List.mem_singleton] at hp
        obtain ⟨hpj, hhid, _⟩ := fileLayers_eq_some cfg specs relDir name q hof
        have hname : isHiddenName name = false := by
          rw [hh] at hhid
          simpa using hhid
        rw [hp, hpj,
          splitOnSlash_joinPosix relDir name (by simpa using hok.1)] at hs
        by_cases hd : relDir = []
        · rw [if_pos hd] at hs
          simp only [List.mem_singleton] at hs
          subst hs
          exact hname
        · rw [if_neg hd, List.mem_append] at hs
          rcases hs with hs | hs
          · exact hrel s hs
          · simp only [List.mem_singleton] at hs
            subst hs
            exact hname
    · exact ih specs relDir hok.2 hrel p hp s hs
  | dirEntry name sub rest ihsub ihrest =>
    intro specs relDir hok hrel p hp s hs
    simp only [treeNamesOk, Bool.and_eq_true] at hok
    simp only [walkLevel, List.mem_append] at hp
    rcases hp with hp | hp
    · cases hsurv : dirSurvives cfg specs relDir name with
      | false =>
        rw [hsurv] at hp
        simp at hp
      | true =>
        rw [hsurv] at hp
        simp only [if_true] at hp
        have hname : isHiddenName name = false := by
          unfold dirSurvives at hsurv
          rw [hh] at hsurv
          simp only [Bool.false_or, Bool.and_eq_true, Bool.not_eq_eq_eq_not,
            Bool.not_true] at hsurv
          simpa using hsurv.1
        have hchild : ∀ s2 ∈ splitOnSlash (joinPosix relDir name),
            isHiddenName s2 = false := by
          intro s2 hs2
          rw [splitOnSlash_joinPosix relDir name (by simpa using hok.1.1)] at hs2
          by_cases hd : relDir = []
          · rw [if_pos hd] at hs2
            simp only [List.mem_singleton] at hs2
            subst hs2
            exact hname
          · rw [if_neg hd, List.mem_append] at hs2
            rcases hs2 with hs2 | hs2
            · exact hrel s2 hs2
            · simp only [List.mem_singleton] at hs2
              subst hs2
              exact hname
        exact ihsub _ (joinPosix relDir name) hok.1.2 hchild p hp s hs
    · exact ihrest specs relDir hok.2 hrel p hp s hs

/-- Exclude-layer invariant of the walk: no produced path matches an
exclude pattern, whatever the other layers decided. -/
theorem walkLevel_exclude (cfg : FilterConfig) (t : FSTree) :
    ∀ (specs : List (List Char × List GPat)) (relDir : List Char),
      ∀ p ∈ walkLevel cfg specs relDir t, matchesExclude cfg p = false := by
  induction t with
  | nilDir =>
    intro specs relDir p hp
    simp [walkLevel] at hp
  | fileEntry name lines rest ih =>
    intro specs relDir p hp
    simp only [walkLevel, List.mem_append] at hp
    rcases hp with hp | hp
    · cases hof : fileLayers cfg specs relDir name with
      | none =>
        rw [hof] at hp
        simp at hp
      | some q =>
        rw [hof] at hp
        simp only [Option.toList_some, List.mem_singleton] at hp
        rw [hp]
        exact (fileLayers_eq_some cfg specs relDir name q hof).2.2
    · exact ih specs relDir p hp
  | dirEntry name sub rest ihsub ihrest =>
    intro specs relDir p hp
    simp only [walkLevel, List.mem_append] at hp
    rcases hp with hp | hp
    · cases hsurv : dirSurvives cfg specs relDir name with
      | false =>
        rw [hsurv] at hp
        simp at hp
      | true =>
        rw [hsurv] at hp
        simp only [if_true] at hp
        exact ihsub _ _ p hp
    · exact ihrest specs relDir p hp

/-- C4: the filter layers short-circuit in fixed precedence.  With
`include_hidden` off, no scanned path has a segment starting with `.`,
regardless of the ignore-rule specs in the tree (so a negation such as
`!.env` cannot re-include a hidden file); and no scanned path matches an
exclude pattern, so a path matching both an include and an exclude
pattern is excluded. -/
theorem c4_filter_precedence (cfg : FilterConfig) (t : FSTree)
    (hok : treeNamesOk t = true) :
    (cfg.include_hidden = false →
      ∀ p ∈ Filtering.scan cfg t, ∀ s ∈ splitOnSlash p, isHiddenName s = false) ∧
    (∀ p ∈ Filtering.scan cfg t,
      matchesExclude cfg p = false ∧
      ¬(matchesInclude cfg p = true ∧ matchesExclude cfg p = true)) := by
  constructor
  · intro hh p hp
    simp only [Filtering.scan, mem_sortLe] at hp
    exact walkLevel_hidden cfg hh t _ [] hok (by simp [splitOnSlash, isHiddenName]) p hp
  · intro p hp
    simp only [Filtering.scan, mem_sortLe] at hp
    have hex := walkLevel_exclude cfg t _ [] p hp
    exact ⟨hex, fun hboth => by rw [hex] at hboth; exact absurd hboth.2 (by simp)⟩

/-- Concrete tree for the C4 witness: a hidden `.env` re-included by the
ignore file, a kept file inside a subdirectory. -/
def c4tree : FSTree :=
  FSTree.fileEntry ".gitignore".toList ["!.env".toList]
    (FSTree.fileEntry ".env".toList []
      (FSTree.dirEntry "sub".toList
        (FSTree.fileEntry "a.txt".toList [] FSTree.nilDir)
        FSTree.nilDir))

/-- Witness for C4 at the concrete tree: the default configuration scans
it and the theorem's conclusions apply to the surviving path
`sub/a.txt`. -/
theorem c4_filter_precedence_witness :
    treeNamesOk c4tree = true ∧
    (∀ s ∈ splitOnSlash "sub/a.txt".toList, isHiddenName s = false) ∧
    matchesExclude {} "sub/a.txt".toList = false := by
  have h := c4_filter_precedence {} c4tree (by decide)
  refine ⟨by decide, ?_, ?_⟩
  · exact h.1 rfl "sub/a.txt".toList (by decide)
  · exact (h.2 "sub/a.txt".toList (by decide)).1

/-- Modelled from the spec: "find the nearest applicable ignore-rule
file along the path's ancestor chain and evaluate its patterns" — the
nearest (deepest) ancestor directory holding a spec decides alone. -/
def nearestSpecIgnored (specs : List (List Char × List GPat))
    (relPath : List Char) (isDir : Bool) : Bool :=
  match (ancestorDirs relPath).reverse.find?
      (fun anc => (List.lookup anc specs).isSome) with
  | none => false
  | some anc =>
    match List.lookup anc specs with
    | none => false
    | some pats =>
      let localPath := if anc = [] then relPath else relPath.drop (anc.length + 1)
      specMatchFile pats localPath isDir

/-- Concrete tree refuting C5: the root ignore file says `*.log`, the
nested one says `!special.log`. -/
def c5tree : FSTree :=
  FSTree.fileEntry ".gitignore".toList ["*.log".toList]
    (FSTree.fileEntry "keep.txt".toList []
      (FSTree.dirEntry "sub".toList
        (FSTree.fileEntry ".gitignore".toList ["!special.log".toList]
          (FSTree.fileEntry "special.log".toList [] FSTree.nilDir))
        FSTree.nilDir))

/-- The accumulated specs the walk holds when it reaches
`sub/special.log` in `c5tree`. -/
def c5specs : List (List Char × List GPat) :=
  [(([] : List Char), parseGitignore ["*.log".toList]),
    ("sub".toList, parseGitignore ["!special.log".toList])]

/-- Counterexample to C5: under the claim's nearest-rule semantics the
negation `!special.log` in the nearest ignore file re-includes
`sub/special.log`, but `_is_gitignored` reports it ignored (the root's
`*.log` wins) and the scan of the tree omits it. -/
theorem c5_nearest_rule_counterexample :
    nearestSpecIgnored c5specs "sub/special.log".toList false = false ∧
    isGitignored c5specs "sub/special.log".toList false = true ∧
    Filtering.scan {} c5tree = ["keep.txt".toList] ∧
    "sub/special.log".toList ∉ Filtering.scan {} c5tree := by decide

theorem isGitignoredAux_iff (specs : List (List Char × List GPat))
    (relPath : List Char) (isDir : Bool) (ancs : List (List Char)) :
    isGitignoredAux specs relPath isDir ancs = true ↔
      ∃ anc ∈ ancs, ∃ pats, List.lookup anc specs = some pats ∧
        specMatchFile pats
          (if anc = [] then relPath else relPath.drop (anc.length + 1)) isDir = true := by
  induction ancs with
  | nil => simp [isGitignoredAux]
  | cons anc rest ih =>
    simp only [isGitignoredAux]
    cases hl : List.lookup anc specs with
    | none =>
      rw [ih]
      constructor
      · rintro ⟨a, ha, pats, hpw, hm⟩
        exact ⟨a, List.mem_cons_of_mem _ ha, pats, hpw, hm⟩
      · rintro ⟨a, ha, pats, hpw, hm⟩
        rcases List.mem_cons.mp ha with rfl | ha2
        · rw [hl] at hpw
          cases hpw
        · exact ⟨a, ha2, pats, hpw, hm⟩
    | some pats =>
      dsimp only
      by_cases hm : specMatchFile pats
          (if anc = [] then relPath else relPath.drop (anc.length + 1)) isDir = true
      · constructor
        · intro _
          exact ⟨anc, List.mem_cons_self anc rest, pats, hl, hm⟩
        · intro _
          simp [hm]
      · have hif :
            (if specMatchFile pats
                (if anc = [] then relPath else relPath.drop (anc.length + 1)) isDir = true
              then true else isGitignoredAux specs relPath isDir rest) =
              isGitignoredAux specs relPath isDir rest := if_neg hm
        rw [hif, ih]
        constructor
        · rintro ⟨a, ha, pats2, hpw, hm2⟩
          exact ⟨a, List.mem_cons_of_mem _ ha, pats2, hpw, hm2⟩
        · rintro ⟨a, ha, pats2, hpw, hm2⟩
          rcases List.mem_cons.mp ha with rfl | ha2
          · rw [hl] at hpw
            cases hpw
            exact absurd hm2 hm
          · exact ⟨a, ha2, pats2, hpw, hm2⟩

/-- Amended C5: `_is_gitignored` consults every applicable ignore-rule
file along the ancestor chain and reports the path ignored when any one
of them matches it (negations take effect only inside the file that
holds them, via `specMatchFile`); a negation in a nearer file therefore
never re-includes a path matched by a farther ancestor's file. -/
theorem c5_gitignore_any_ancestor (specs : List (List Char × List GPat))
    (relPath : List Char) (isDir : Bool) :
    isGitignored specs relPath isDir = true ↔
      ∃ anc ∈ ancestorDirs relPath, ∃ pats, List.lookup anc specs = some pats ∧
        specMatchFile pats
          (if anc = [] then relPath else relPath.drop (anc.length + 1)) isDir = true := by
  unfold isGitignored
  by_cases hs : specs = []
  · subst hs
    simp
  · rw [if_neg hs]
    exact isGitignoredAux_iff specs relPath isDir (ancestorDirs relPath)

/-- A structure pass over one scan list classifies everything as
identical. -/
theorem structureCompare_self_identical (leftRoot rightRoot : String)
    (paths : List (List Char)) :
    ∀ fc ∈ structureCompare leftRoot rightRoot paths paths,
      fc.status = FileStatus.identical := by
  intro fc hfc
  simp only [structureCompare, List.mem_map] at hfc
  obtain ⟨rel, hrel, rfl⟩ := hfc
  rw [mem_sortLe, List.mem_dedup, List.mem_append, or_self] at hrel
  simp [hrel]

/-- `TextComparator.compare` on one byte content against itself reports
`identical` with similarity 1 and no hunks (the matcher ratio of a
sequence against itself is exactly 1). -/
theorem compareBytes_self (contextLines : Nat) (relativePath leftPath rightPath : String)
    (b : List Nat) :
    (compareBytes contextLines relativePath leftPath rightPath b b).status =
        FileStatus.identical ∧
      (compareBytes contextLines relativePath leftPath rightPath b b).similarity = some 1 ∧
      (compareBytes contextLines relativePath leftPath rightPath b b).hunks = [] := by
  unfold compareBytes
  by_cases hbin : isBinary b ∨ isBinary b
  · rw [if_pos hbin]
    unfold compareBinary
    rw [if_pos rfl]
    exact ⟨rfl, rfl, rfl⟩
  · rw [if_neg hbin]
    unfold compareText
    rw [if_pos (ratioVal_self _)]
    exact ⟨rfl, rfl, rfl⟩

/-- Stats of an all-identical comparison list. -/
theorem stats_of_all_identical (comps : List FileComparison)
    (h : ∀ fc ∈ comps, fc.status = FileStatus.identical) :
    (DiffStats.from_comparisons comps).modified = 0 ∧
      (DiffStats.from_comparisons comps).added = 0 ∧
      (DiffStats.from_comparisons comps).removed = 0 := by
  unfold DiffStats.from_comparisons
  refine ⟨?_, ?_, ?_⟩ <;>
    · simp only [List.length_eq_zero]
      rw [List.filter_eq_nil_iff]
      intro fc hfc
      rw [h fc hfc]
      simp

/-- C7: comparing any existing path against itself with an
auto-detecting `Comparator` succeeds, every produced entry is
`identical`, and the stats count no modified, added or removed files. -/
theorem c7_self_compare_identical (fs : FS) (cfg : FilterConfig)
    (contextLines : Nat) (hashFn : List Nat → String) (p : String)
    (hex : fs.pathExists p = true) :
    ∃ res, comparatorCompare none cfg contextLines hashFn fs p p = Except.ok res ∧
      (∀ fc ∈ res.comparisons, fc.status = FileStatus.identical) ∧
      res.stats.modified = 0 ∧ res.stats.added = 0 ∧ res.stats.removed = 0 := by
  cases hd : fs.isDir p with
  | true =>
    have hcomps : ∀ fc ∈ structureCompare p p (Filtering.scan cfg (fs.tree p))
        (Filtering.scan cfg (fs.tree p)), fc.status = FileStatus.identical :=
      structureCompare_self_identical p p _
    refine ⟨⟨p, p, DiffDepth.structure',
      structureCompare p p (Filtering.scan cfg (fs.tree p)) (Filtering.scan cfg (fs.tree p)),
      DiffStats.from_comparisons (structureCompare p p (Filtering.scan cfg (fs.tree p))
        (Filtering.scan cfg (fs.tree p)))⟩,
      ?_, hcomps, stats_of_all_identical _ hcomps⟩
    simp [comparatorCompare, hex, resolveDepth, hd, runPipeline, structurePass,
      scanRoot, Bind.bind, Except.bind, Pure.pure, Except.pure]
  | false =>
    have hone := compareBytes_self contextLines "" p p (fs.fileBytes p)
    have hcomps : ∀ fc ∈ [textCompareFs contextLines fs p p ""],
        fc.status = FileStatus.identical := by
      intro fc hfc
      simp only [List.mem_singleton] at hfc
      subst hfc
      exact hone.1
    refine ⟨⟨p, p, DiffDepth.text, [textCompareFs contextLines fs p p ""],
      DiffStats.from_comparisons [textCompareFs contextLines fs p p ""]⟩,
      ?_, hcomps, stats_of_all_identical _ hcomps⟩
    simp [comparatorCompare, hex, resolveDepth, hd, runPipeline, runTextPipeline,
      FS.isFile, Bind.bind, Except.bind, Pure.pure, Except.pure]

/-- Witness for C7 on the concrete one-file directory. -/
theorem c7_self_compare_identical_witness :
    fsDirWitness.pathExists "/d" = true ∧
    (∃ res, comparatorCompare none {} 3 (fun _ => "h") fsDirWitness "/d" "/d" =
        Except.ok res ∧
      (∀ fc ∈ res.comparisons, fc.status = FileStatus.identical) ∧
      res.stats.modified = 0 ∧ res.stats.added = 0 ∧ res.stats.removed = 0) :=
  ⟨by decide, c7_self_compare_identical fsDirWitness {} 3 (fun _ => "h") "/d" (by decide)⟩

/-- Structure-pass entries never carry a similarity, and an entry with
an absent side is never `identical`. -/
theorem structureCompare_entry (leftRoot rightRoot : String)
    (leftPaths rightPaths : List (List Char)) :
    ∀ fc ∈ structureCompare leftRoot rightRoot leftPaths rightPaths,
      fc.similarity = none ∧
      ((fc.left_path = none ∨ fc.right_path = none) →
        fc.status ≠ FileStatus.identical) := by
  intro fc hfc
  simp only [structureCompare, List.mem_map] at hfc
  obtain ⟨rel, _, rfl⟩ := hfc
  by_cases h1 : rel ∈ leftPaths <;> by_cases h2 : rel ∈ rightPaths <;> simp [h1, h2]

/-- Content comparison reports similarity 1 exactly on `identical`. -/
theorem contentCompare_sim_iff (hashFn : List Nat → String) (fs : FS)
    (leftPath rightPath relativePath : String) (fc : FileComparison)
    (h : contentCompare hashFn fs leftPath rightPath relativePath = Except.ok fc) :
    fc.similarity = some 1 ↔ fc.status = FileStatus.identical := by
  unfold contentCompare validateFile at h
  simp only [Bind.bind, Except.bind, Pure.pure] at h
  split_ifs at h <;> try cases h
  all_goals simp

/-- Text comparison reports similarity 1 exactly on `identical`. -/
theorem compareBytes_sim_iff (contextLines : Nat)
    (relativePath leftPath rightPath : String) (leftBytes rightBytes : List Nat) :
    ((compareBytes contextLines relativePath leftPath rightPath leftBytes
        rightBytes).similarity = some 1 ↔
      (compareBytes contextLines relativePath leftPath rightPath leftBytes
        rightBytes).status = FileStatus.identical) := by
  unfold compareBytes compareBinary compareText
  split_ifs <;> (try simp_all) <;> (split_ifs <;> simp_all)

/-- A successful `Except` `mapM` maps every output to some input. -/
theorem except_mapM_mem {β γ ε : Type} (f : β → Except ε γ) :
    ∀ (l : List β) (l2 : List γ), l.mapM f = Except.ok l2 →
      ∀ b ∈ l2, ∃ a ∈ l, f a = Except.ok b := by
  intro l
  induction l with
  | nil =>
    intro l2 h b hb
    simp only [List.mapM_nil, Pure.pure] at h
    cases h
    simp at hb
  | cons a l ih =>
    intro l2 h b hb
    rw [List.mapM_cons] at h
    cases hfa : f a with
    | error e =>
      rw [hfa] at h
      simp [Bind.bind, Except.bind] at h
    | ok b0 =>
      rw [hfa] at h
      cases hml : l.mapM f with
      | error e =>
        rw [hml] at h
        simp [Bind.bind, Except.bind] at h
      | ok bs =>
        rw [hml] at h
        simp only [Bind.bind, Except.bind, Pure.pure] at h
        cases h
        rcases List.mem_cons.mp hb with rfl | hb2
        · exact ⟨a, List.mem_cons_self a l, hfa⟩
        · obtain ⟨a2, ha2, hfa2⟩ := ih bs hml b hb2
          exact ⟨a2, List.mem_cons_of_mem a ha2, hfa2⟩

/-- Inversion of the structure pass. -/
theorem structurePass_ok (cfg : FilterConfig) (fs : FS) (left right : String)
    (comps : List FileComparison)
    (h : structurePass cfg fs left right = Except.ok comps) :
    ∃ lp rp, comps = structureCompare left right lp rp := by
  unfold structurePass scanRoot at h
  split_ifs at h <;>
    simp only [Bind.bind, Except.bind, Pure.pure, Except.pure] at h <;>
    cases h
  exact ⟨_, _, rfl⟩

/-- The per-entry property needed for C3, abstracted over the
comparisons of one pipeline run. -/
theorem runPipeline_sim_iff (cfg : FilterConfig) (contextLines : Nat)
    (hashFn : List Nat → String) (fs : FS) (left right : String)
    (depth : DiffDepth) (comps : List FileComparison)
    (h : runPipeline cfg contextLines hashFn fs left right depth = Except.ok comps) :
    (∀ fc ∈ comps, fc.similarity = some 1 → fc.status = FileStatus.identical) ∧
    (depth ≠ DiffDepth.structure' →
      ∀ fc ∈ comps, (fc.similarity = some 1 ↔ fc.status = FileStatus.identical)) := by
  cases depth with
  | structure' =>
    refine ⟨?_, fun hne => absurd rfl hne⟩
    obtain ⟨lp, rp, rfl⟩ := structurePass_ok cfg fs left right comps h
    intro fc hfc hsim
    have := (structureCompare_entry left right lp rp fc hfc).1
    rw [this] at hsim
    cases hsim
  | content =>
    have hiff : ∀ fc ∈ comps, fc.similarity = some 1 ↔ fc.status = FileStatus.identical := by
      unfold runPipeline runContentPipeline at h
      split_ifs at h with hff
      · simp only [Bind.bind, Except.bind, Pure.pure] at h
        cases hcc : contentCompare hashFn fs left right "" with
        | error e =>
          rw [hcc] at h
          cases h
        | ok fc0 =>
          rw [hcc] at h
          cases h
          intro fc hfc
          simp only [List.mem_singleton] at hfc
          subst hfc
          exact contentCompare_sim_iff hashFn fs left right "" fc hcc
      · simp only [Bind.bind, Except.bind] at h
        cases hsp : structurePass cfg fs left right with
        | error e =>
          rw [hsp] at h
          cases h
        | ok sc =>
          rw [hsp] at h
          intro fc hfc
          obtain ⟨a, ha, hfa⟩ := except_mapM_mem _ sc comps h fc hfc
          obtain ⟨lp, rp, rfl⟩ := structurePass_ok cfg fs left right sc hsp
          have hent := structureCompare_entry left right lp rp a ha
          rcases hlp : a.left_path with _ | alp <;>
            rcases hrp : a.right_path with _ | arp <;>
            rw [hlp, hrp] at hfa <;>
            dsimp only at hfa <;>
            try simp only [Pure.pure, Except.pure] at hfa
          · cases hfa
            constructor
            · intro hs
              rw [hent.1] at hs
              cases hs
            · intro hs
              exact absurd hs (hent.2 (Or.inl hlp))
          · cases hfa
            constructor
            · intro hs
              rw [hent.1] at hs
              cases hs
            · intro hs
              exact absurd hs (hent.2 (Or.inl hlp))
          · cases hfa
            constructor
            · intro hs
              rw [hent.1] at hs
              cases hs
            · intro hs
              exact absurd hs (hent.2 (Or.inr hrp))
          · exact contentCompare_sim_iff hashFn fs alp arp a.relative_path fc hfa
    exact ⟨fun fc hfc => (hiff fc hfc).mp, fun _ => hiff⟩
  | text =>
    have hiff : ∀ fc ∈ comps, fc.similarity = some 1 ↔ fc.status = FileStatus.identical := by
      unfold runPipeline runTextPipeline at h
      split_ifs at h with hff
      · cases h
        intro fc hfc
        simp only [List.mem_singleton] at hfc
        subst hfc
        unfold textCompareFs
        exact compareBytes_sim_iff contextLines "" left right _ _
      · simp only [Bind.bind, Except.bind] at h
        cases hsp : structurePass cfg fs left right with
        | error e =>
          rw [hsp] at h
          cases h
        | ok sc =>
          rw [hsp] at h
          simp only [Pure.pure] at h
          cases h
          intro fc hfc
          simp only [List.mem_map] at hfc
          obtain ⟨a, ha, rfl⟩ := hfc
          obtain ⟨lp, rp, rfl⟩ := structurePass_ok cfg fs left right sc hsp
          have hent := structureCompare_entry left right lp rp a ha
          rcases hlp : a.left_path with _ | alp <;>
            rcases hrp : a.right_path with _ | arp <;>
            dsimp only
          · constructor
            · intro hs
              rw [hent.1] at hs
              cases hs
            · intro hs
              exact absurd hs (hent.2 (Or.inl hlp))
          · constructor
            · intro hs
              rw [hent.1] at hs
              cases hs
            · intro hs
              exact absurd hs (hent.2 (Or.inl hlp))
          · constructor
            · intro hs
              rw [hent.1] at hs
              cases hs
            · intro hs
              exact absurd hs (hent.2 (Or.inr hrp))
          · unfold textCompareFs
            exact compareBytes_sim_iff contextLines a.relative_path alp arp _ _
    exact ⟨fun fc hfc => (hiff fc hfc).mp, fun _ => hiff⟩

/-- Amended C3: a similarity of exactly 1.0 implies status `identical`
for every entry of every run; at content and text depth the converse
also holds, while structure-depth entries carry no similarity at all
(`None`, also for `identical` entries). -/
theorem c3_similarity_one_iff_identical (explicitDepth : Option DiffDepth)
    (cfg : FilterConfig) (contextLines : Nat) (hashFn : List Nat → String)
    (fs : FS) (left right : String) (res : DiffResult)
    (h : comparatorCompare explicitDepth cfg contextLines hashFn fs left right =
      Except.ok res) :
    (∀ fc ∈ res.comparisons, fc.similarity = some 1 → fc.status = FileStatus.identical) ∧
    (res.depth ≠ DiffDepth.structure' →
      ∀ fc ∈ res.comparisons, (fc.similarity = some 1 ↔ fc.status = FileStatus.identical)) := by
  unfold comparatorCompare at h
  split_ifs at h
  simp only [Bind.bind, Except.bind] at h
  cases hrd : resolveDepth explicitDepth fs left right with
  | error e =>
    rw [hrd] at h
    cases h
  | ok depth =>
    rw [hrd] at h
    dsimp only at h
    cases hrp : runPipeline cfg contextLines hashFn fs left right depth with
    | error e =>
      rw [hrp] at h
      cases h
    | ok comps =>
      rw [hrp] at h
      dsimp only at h
      simp only [Pure.pure, Except.pure] at h
      cases h
      have hp := runPipeline_sim_iff cfg contextLines hashFn fs left right depth comps hrp
      exact ⟨hp.1, fun hne => hp.2 (by simpa using hne)⟩

/-- Two directories each holding the same single file: the input of the
C3 counterexample. -/
def fsC3 : FS :=
  { pathExists := fun p => p = "/a" || p = "/b" || p = "/a/f.txt" || p = "/b/f.txt"
    isDir := fun p => p = "/a" || p = "/b"
    tree := fun _ => FSTree.fileEntry "f.txt".toList [] FSTree.nilDir
    fileBytes := fun _ => [104, 10] }

/-- Counterexample to C3: at structure depth the pipeline produces an
`identical` entry whose similarity is `None`, not 1.0, so
"similarity = 1.0 iff identical" fails for structure-depth results. -/
theorem c3_structure_identical_counterexample :
    comparatorCompare none {} 3 (fun _ => "h") fsC3 "/a" "/b" =
      Except.ok
        ⟨"/a", "/b", DiffDepth.structure',
          [⟨"f.txt", FileStatus.identical, some "/a/f.txt", some "/b/f.txt",
            [], none, none, none⟩],
          ⟨1, 1, 0, 0, 0⟩⟩ ∧
    (⟨"f.txt", FileStatus.identical, some "/a/f.txt", some "/b/f.txt",
        [], none, none, none⟩ : FileComparison).status = FileStatus.identical ∧
    ¬(⟨"f.txt", FileStatus.identical, some "/a/f.txt", some "/b/f.txt",
        [], none, none, none⟩ : FileComparison).similarity = some 1 := by
  decide

/-- Two regular files with equal bytes: the input of the C3 witness. -/
def fsTwoFiles : FS :=
  { pathExists := fun p => p = "/f1" || p = "/f2"
    isDir := fun _ => false
    tree := fun _ => FSTree.nilDir
    fileBytes := fun _ => [104, 10] }

/-- Witness for the amended C3 at a concrete text-depth run. -/
theorem c3_similarity_one_iff_identical_witness :
    ((⟨"f1", FileStatus.identical, some "/f1", some "/f2", [], none, none, some 1⟩ :
        FileComparison).similarity = some 1) ↔
      ((⟨"f1", FileStatus.identical, some "/f1", some "/f2", [], none, none, some 1⟩ :
        FileComparison).status = FileStatus.identical) := by
  have hres : comparatorCompare none {} 3 (fun _ => "h") fsTwoFiles "/f1" "/f2" =
      Except.ok
        ⟨"/f1", "/f2", DiffDepth.text,
          [⟨"f1", FileStatus.identical, some "/f1", some "/f2", [], none, none, some 1⟩],
          ⟨1, 1, 0, 0, 0⟩⟩ := by decide
  exact (c3_similarity_one_iff_identical none {} 3 (fun _ => "h") fsTwoFiles "/f1" "/f2"
    _ hres).2 (by decide) _ (by decide)

/-- C10: for non-binary pairs the classification is decided entirely by
the decoded line sequences — equal decoded lines give `identical` with
similarity 1 and no hunks, whatever the raw bytes were. -/
theorem c10_identity_by_decoded_lines (contextLines : Nat)
    (relativePath leftPath rightPath : String) (leftBytes rightBytes : List Nat)
    (hlb : isBinary leftBytes = false) (hrb : isBinary rightBytes = false)
    (hlines : splitLines (utf8DecodeReplace leftBytes) =
      splitLines (utf8DecodeReplace rightBytes)) :
    (compareBytes contextLines relativePath leftPath rightPath leftBytes
        rightBytes).status = FileStatus.identical ∧
    (compareBytes contextLines relativePath leftPath rightPath leftBytes
        rightBytes).similarity = some 1 ∧
    (compareBytes contextLines relativePath leftPath rightPath leftBytes
        rightBytes).hunks = [] := by
  unfold compareBytes
  rw [if_neg (by simp [hlb, hrb])]
  unfold compareText
  rw [hlines, if_pos (ratioVal_self _)]
  exact ⟨rfl, rfl, rfl⟩

/-- Witness for C10: the invalid UTF-8 bytes `0xFF` and `0xFE` differ,
both decode to the replacement character under the default `replace`
policy, and the comparison reports them identical with similarity 1 and
no hunks. -/
theorem c10_identity_by_decoded_lines_witness :
    ([255] : List Nat) ≠ [254] ∧
    isBinary [255] = false ∧ isBinary [254] = false ∧
    utf8DecodeReplace [255] = [65533] ∧ utf8DecodeReplace [254] = [65533] ∧
    (compareBytes 3 "x" "/l" "/r" [255] [254]).status = FileStatus.identical ∧
    (compareBytes 3 "x" "/l" "/r" [255] [254]).similarity = some 1 ∧
    (compareBytes 3 "x" "/l" "/r" [255] [254]).hunks = [] := by
  have h := c10_identity_by_decoded_lines 3 "x" "/l" "/r" [255] [254]
    (by decide) (by decide) (by decide)
  exact ⟨by decide, by decide, by decide, by decide, by decide, h.1, h.2.1, h.2.2⟩

/-- Left bytes of the C8 scenario (`"line 1\nline 2\nline 3\n"`). -/
def c8Left : List Nat :=
  "line 1\nline 2\nline 3\n".toList.map Char.toNat

/-- Right bytes of the C8 scenario
(`"line 1\nchanged line 2\nline 3\n"`). -/
def c8Right : List Nat :=
  "line 1\nchanged line 2\nline 3\n".toList.map Char.toNat

/-- Counterexample to C8's similarity value: the matcher ratio of the
scenario is `2*2/6 = 2/3 ≈ 0.67`, not ≈ 0.83 (it is below 0.78, so no
reading of "approximately 0.83" covers it). -/
theorem c8_similarity_counterexample :
    (compareBytes 3 "f.txt" "/l/f.txt" "/r/f.txt" c8Left c8Right).similarity =
      some (mkRat 4 6) ∧
    mkRat 4 6 < mkRat 78 100 ∧ mkRat 78 100 < mkRat 83 100 := by
  decide

/-- Amended C8: the scenario produces one hunk spanning the whole file
with changes equal/delete/insert/equal and similarity exactly 2/3. -/
theorem c8_three_line_scenario :
    compareBytes 3 "f.txt" "/l/f.txt" "/r/f.txt" c8Left c8Right =
      { relative_path := "f.txt"
        status := FileStatus.modified
        left_path := some "/l/f.txt"
        right_path := some "/r/f.txt"
        hunks := [
          { start_left := 1
            count_left := 3
            start_right := 1
            count_right := 3
            changes := [
              ⟨ChangeType.equal, "line 1\n".toList.map Char.toNat, some 1, some 1⟩,
              ⟨ChangeType.delete, "line 2\n".toList.map Char.toNat, some 2, none⟩,
              ⟨ChangeType.insert, "changed line 2\n".toList.map Char.toNat, none, some 2⟩,
              ⟨ChangeType.equal, "line 3\n".toList.map Char.toNat, some 3, some 3⟩] }]
        content_hash_left := none
        content_hash_right := none
        similarity := some (mkRat 4 6) } := by
  decide

/-- Well-formedness of one opcode, as guaranteed by
`SequenceMatcher.get_opcodes`: ranges are ordered and inside the
sequences, equal opcodes advance both sides equally, delete opcodes do
not advance the right side, insert opcodes do not advance the left
side. -/
def opcodeWF (L R : List (List Nat)) (c : Opcode) : Prop :=
  c.i1 ≤ c.i2 ∧ c.j1 ≤ c.j2 ∧ c.i2 ≤ L.length ∧ c.j2 ≤ R.length ∧
  (c.tag = OpTag.equal → c.i2 - c.i1 = c.j2 - c.j1) ∧
  (c.tag = OpTag.delete → c.j1 = c.j2) ∧
  (c.tag = OpTag.insert → c.i1 = c.i2)

instance (L R : List (List Nat)) (c : Opcode) : Decidable (opcodeWF L R c) := by
  unfold opcodeWF
  infer_instance

/-- The chaining relation of consecutive opcodes within one group
(`get_opcodes` makes each opcode start where the previous one ends, and
`get_grouped_opcodes` only trims the two ends of a group). -/
def opcodeChain (c1 c2 : Opcode) : Prop :=
  c2.i1 = c1.i2 ∧ c2.j1 = c1.j2

instance (c1 c2 : Opcode) : Decidable (opcodeChain c1 c2) := by
  unfold opcodeChain
  infer_instance

theorem sliceEnum_map_fst (xs : List (List Nat)) (i1 i2 : Nat)
    (h1 : i1 ≤ i2) (h2 : i2 ≤ xs.length) :
    (sliceEnum xs i1 i2).map Prod.fst = List.range (i2 - i1) := by
  unfold sliceEnum
  rw [List.enum_map_fst]
  congr 1
  rw [List.length_take, List.length_drop]
  omega

/-- Left-side line numbers of one opcode's changes form the consecutive
range `[i1+1, i2]`. -/
theorem changesForOpcode_left_lines (L R : List (List Nat)) (c : Opcode)
    (hwf : opcodeWF L R c) :
    (changesForOpcode L R c).filterMap TextChange.line_left =
      List.range' (c.i1 + 1) (c.i2 - c.i1) := by
  obtain ⟨h12, hj12, hL, hR, heq, hdel, hins⟩ := hwf
  have hslice : ∀ (off : Nat),
      ((sliceEnum L c.i1 c.i2).map fun p => off + p.1 + 1) =
        List.range' (off + 1) (c.i2 - c.i1) := by
    intro off
    have hmm : ((sliceEnum L c.i1 c.i2).map fun p => off + p.1 + 1) =
        ((sliceEnum L c.i1 c.i2).map Prod.fst).map fun n => off + n + 1 := by
      rw [List.map_map]
      rfl
    rw [hmm, sliceEnum_map_fst L c.i1 c.i2 h12 hL, List.range'_eq_map_range]
    refine List.map_congr_left fun n _ => by omega
  cases htag : c.tag with
  | equal =>
    unfold changesForOpcode
    rw [htag]
    rw [List.filterMap_map]
    have : ((fun tc => TextChange.line_left tc) ∘ fun p : Nat × List Nat =>
        (⟨ChangeType.equal, p.2, some (c.i1 + p.1 + 1), some (c.j1 + p.1 + 1)⟩ :
          TextChange)) = some ∘ fun p : Nat × List Nat => c.i1 + p.1 + 1 := rfl
    rw [this, List.filterMap_eq_map, hslice]
  | delete =>
    unfold changesForOpcode
    rw [htag]
    rw [List.filterMap_map]
    have : ((fun tc => TextChange.line_left tc) ∘ fun p : Nat × List Nat =>
        (⟨ChangeType.delete, p.2, some (c.i1 + p.1 + 1), none⟩ : TextChange)) =
        some ∘ fun p : Nat × List Nat => c.i1 + p.1 + 1 := rfl
    rw [this, List.filterMap_eq_map, hslice]
  | insert =>
    unfold changesForOpcode
    rw [htag]
    rw [List.filterMap_map]
    have : ((fun tc => TextChange.line_left tc) ∘ fun p : Nat × List Nat =>
        (⟨ChangeType.insert, p.2, none, some (c.j1 + p.1 + 1)⟩ : TextChange)) =
        fun p => (none : Option Nat) := rfl
    rw [this]
    rw [hins htag]
    simp [List.filterMap_eq_nil_iff]
  | replace =>
    unfold changesForOpcode
    rw [htag]
    rw [List.filterMap_append, List.filterMap_map, List.filterMap_map]
    have h1 : ((fun tc => TextChange.line_left tc) ∘ fun p : Nat × List Nat =>
        (⟨ChangeType.delete, p.2, some (c.i1 + p.1 + 1), none⟩ : TextChange)) =
        some ∘ fun p : Nat × List Nat => c.i1 + p.1 + 1 := rfl
    have h2 : ((fun tc => TextChange.line_left tc) ∘ fun p : Nat × List Nat =>
        (⟨ChangeType.insert, p.2, none, some (c.j1 + p.1 + 1)⟩ : TextChange)) =
        fun p => (none : Option Nat) := rfl
    rw [h1, h2, List.filterMap_eq_map, hslice]
    simp [List.filterMap_eq_nil_iff]

/-- Right-side line numbers of one opcode's changes form the consecutive
range `[j1+1, j2]`. -/
theorem changesForOpcode_right_lines (L R : List (List Nat)) (c : Opcode)
    (hwf : opcodeWF L R c) :
    (changesForOpcode L R c).filterMap TextChange.line_right =
      List.range' (c.j1 + 1) (c.j2 - c.j1) := by
  obtain ⟨h12, hj12, hL, hR, heq, hdel, hins⟩ := hwf
  have hsliceR : ((sliceEnum R c.j1 c.j2).map fun p => c.j1 + p.1 + 1) =
      List.range' (c.j1 + 1) (c.j2 - c.j1) := by
    have : ((sliceEnum R c.j1 c.j2).map fun p => c.j1 + p.1 + 1) =
        ((sliceEnum R c.j1 c.j2).map Prod.fst).map fun n => c.j1 + n + 1 := by
      rw [List.map_map]
      rfl
    rw [this, sliceEnum_map_fst R c.j1 c.j2 hj12 hR, List.range'_eq_map_range]
    refine List.map_congr_left fun n _ => by omega
  cases htag : c.tag with
  | equal =>
    unfold changesForOpcode
    rw [htag]
    rw [List.filterMap_map]
    have : ((fun tc => TextChange.line_right tc) ∘ fun p : Nat × List Nat =>
        (⟨ChangeType.equal, p.2, some (c.i1 + p.1 + 1), some (c.j1 + p.1 + 1)⟩ :
          TextChange)) = some ∘ fun p : Nat × List Nat => c.j1 + p.1 + 1 := rfl
    rw [this, List.filterMap_eq_map]
    have hsliceL : ((sliceEnum L c.i1 c.i2).map fun p => c.j1 + p.1 + 1) =
        ((sliceEnum L c.i1 c.i2).map Prod.fst).map fun n => c.j1 + n + 1 := by
      rw [List.map_map]
      rfl
    rw [hsliceL, sliceEnum_map_fst L c.i1 c.i2 h12 hL, heq htag,
      List.range'_eq_map_range]
    refine List.map_congr_left fun n _ => by omega
  | delete =>
    unfold changesForOpcode
    rw [htag]
    rw [List.filterMap_map]
    have : ((fun tc => TextChange.line_right tc) ∘ fun p : Nat × List Nat =>
        (⟨ChangeType.delete, p.2, some (c.i1 + p.1 + 1), none⟩ : TextChange)) =
        fun p => (none : Option Nat) := rfl
    rw [this, hdel htag]
    simp [List.filterMap_eq_nil_iff]
  | insert =>
    unfold changesForOpcode
    rw [htag]
    rw [List.filterMap_map]
    have : ((fun tc => TextChange.line_right tc) ∘ fun p : Nat × List Nat =>
        (⟨ChangeType.insert, p.2, none, some (c.j1 + p.1 + 1)⟩ : TextChange)) =
        some ∘ fun p : Nat × List Nat => c.j1 + p.1 + 1 := rfl
    rw [this, List.filterMap_eq_map, hsliceR]
  | replace =>
    unfold changesForOpcode
    rw [htag]
    rw [List.filterMap_append, List.filterMap_map, List.filterMap_map]
    have h1 : ((fun tc => TextChange.line_right tc) ∘ fun p : Nat × List Nat =>
        (⟨ChangeType.delete, p.2, some (c.i1 + p.1 + 1), none⟩ : TextChange)) =
        fun p => (none : Option Nat) := rfl
    have h2 : ((fun tc => TextChange.line_right tc) ∘ fun p : Nat × List Nat =>
        (⟨ChangeType.insert, p.2, none, some (c.j1 + p.1 + 1)⟩ : TextChange)) =
        some ∘ fun p : Nat × List Nat => c.j1 + p.1 + 1 := rfl
    rw [h1, h2, List.filterMap_eq_map, hsliceR]
    simp [List.filterMap_eq_nil_iff]

/-- In a chained well-formed group, the start of the head never exceeds
the end of the last opcode (left side). -/
theorem chain_last_i2 (L R : List (List Nat)) :
    ∀ (rest : List Opcode) (first : Opcode), (∀ c ∈ first :: rest, opcodeWF L R c) →
      List.Chain' opcodeChain (first :: rest) →
      first.i1 ≤ (rest.getLastD first).i2 ∧ first.j1 ≤ (rest.getLastD first).j2 := by
  intro rest
  induction rest with
  | nil =>
    intro first hwf _
    have h := hwf first (List.mem_cons_self _ _)
    exact ⟨h.1, h.2.1⟩
  | cons second rest ih =>
    intro first hwf hchain
    rw [List.getLastD_cons]
    have hch : opcodeChain first second := List.chain'_cons.mp hchain |>.1
    have htail := List.chain'_cons.mp hchain |>.2
    have hwf2 : ∀ c ∈ second :: rest, opcodeWF L R c :=
      fun c hc => hwf c (List.mem_cons_of_mem _ hc)
    have hrec := ih second hwf2 htail
    have h1 := hwf first (List.mem_cons_self _ _)
    obtain ⟨hci, hcj⟩ := hch
    obtain ⟨hr1, hr2⟩ := hrec
    obtain ⟨ha, hb, -⟩ := h1
    exact ⟨by omega, by omega⟩

theorem range'_glue (a b c : Nat) (hab : a ≤ b) (hbc : b ≤ c) :
    List.range' (a + 1) (b - a) ++ List.range' (b + 1) (c - b) =
      List.range' (a + 1) (c - a) := by
  have h := List.range'_append (a + 1) (b - a) (c - b) 1
  rw [show a + 1 + 1 * (b - a) = b + 1 by omega] at h
  rw [show c - b + (b - a) = c - a by omega] at h
  exact h

/-- The left line numbers of a chained well-formed group's change list
are exactly the consecutive lines from the first opcode's start to the
last opcode's end. -/
theorem buildChanges_left_lines (L R : List (List Nat)) :
    ∀ (rest : List Opcode) (first : Opcode), (∀ c ∈ first :: rest, opcodeWF L R c) →
      List.Chain' opcodeChain (first :: rest) →
      (buildChanges (first :: rest) L R).filterMap TextChange.line_left =
        List.range' (first.i1 + 1) ((rest.getLastD first).i2 - first.i1) := by
  intro rest
  induction rest with
  | nil =>
    intro first hwf _
    unfold buildChanges
    simp only [List.map_cons, List.map_nil, List.flatten_cons, List.flatten_nil,
      List.append_nil, List.getLastD_nil]
    exact changesForOpcode_left_lines L R first (hwf first (List.mem_cons_self _ _))
  | cons second rest ih =>
    intro first hwf hchain
    obtain ⟨hch, htail⟩ := List.chain'_cons.mp hchain
    have hwf2 : ∀ c ∈ second :: rest, opcodeWF L R c :=
      fun c hc => hwf c (List.mem_cons_of_mem _ hc)
    have hih := ih second hwf2 htail
    unfold buildChanges at hih ⊢
    simp only [List.map_cons, List.flatten_cons] at hih ⊢
    rw [List.filterMap_append,
      changesForOpcode_left_lines L R first (hwf first (List.mem_cons_self _ _)),
      hih, List.getLastD_cons]
    obtain ⟨hle, -⟩ := chain_last_i2 L R rest second hwf2 htail
    obtain ⟨hci, -⟩ := hch
    obtain ⟨h12, -⟩ := hwf first (List.mem_cons_self _ _)
    rw [hci]
    exact range'_glue first.i1 first.i2 ((rest.getLastD second).i2) h12 (hci ▸ hle)

/-- Right-side analogue of `buildChanges_left_lines`. -/
theorem buildChanges_right_lines (L R : List (List Nat)) :
    ∀ (rest : List Opcode) (first : Opcode), (∀ c ∈ first :: rest, opcodeWF L R c) →
      List.Chain' opcodeChain (first :: rest) →
      (buildChanges (first :: rest) L R).filterMap TextChange.line_right =
        List.range' (first.j1 + 1) ((rest.getLastD first).j2 - first.j1) := by
  intro rest
  induction rest with
  | nil =>
    intro first hwf _
    unfold buildChanges
    simp only [List.map_cons, List.map_nil, List.flatten_cons, List.flatten_nil,
      List.append_nil, List.getLastD_nil]
    exact changesForOpcode_right_lines L R first (hwf first (List.mem_cons_self _ _))
  | cons second rest ih =>
    intro first hwf hchain
    obtain ⟨hch, htail⟩ := List.chain'_cons.mp hchain
    have hwf2 : ∀ c ∈ second :: rest, opcodeWF L R c :=
      fun c hc => hwf c (List.mem_cons_of_mem _ hc)
    have hih := ih second hwf2 htail
    unfold buildChanges at hih ⊢
    simp only [List.map_cons, List.flatten_cons] at hih ⊢
    rw [List.filterMap_append,
      changesForOpcode_right_lines L R first (hwf first (List.mem_cons_self _ _)),
      hih, List.getLastD_cons]
    obtain ⟨-, hle⟩ := chain_last_i2 L R rest second hwf2 htail
    obtain ⟨-, hcj⟩ := hch
    obtain ⟨-, hj12, -⟩ := hwf first (List.mem_cons_self _ _)
    rw [hcj]
    exact range'_glue first.j1 first.j2 ((rest.getLastD second).j2) hj12 (hcj ▸ hle)

/-- C9: every hunk `_build_hunks` makes from a non-empty opcode group
obeying the `get_opcodes` contract (each opcode well formed, consecutive
opcodes chained end-to-start) has a consistent header: the left line
numbers of its changes (the equal and delete entries) are exactly the
consecutive range of length `count_left` starting at `start_left`, the
right line numbers (the equal and insert entries) likewise for
`count_right`/`start_right`; in particular each count equals the number
of changes with that side's line number set, the starts are the first
covered 1-based lines, and the line numbers are consecutive. -/
theorem c9_hunk_line_numbers (L R : List (List Nat)) (first : Opcode) (rest : List Opcode)
    (hwf : ∀ c ∈ first :: rest, opcodeWF L R c)
    (hchain : List.Chain' opcodeChain (first :: rest)) :
    ∃ h, buildHunk L R (first :: rest) = some h ∧
      h.changes.filterMap TextChange.line_left = List.range' h.start_left h.count_left ∧
      h.changes.filterMap TextChange.line_right = List.range' h.start_right h.count_right ∧
      (h.changes.filterMap TextChange.line_left).length = h.count_left ∧
      (h.changes.filterMap TextChange.line_right).length = h.count_right := by
  refine ⟨_, rfl, ?_, ?_, ?_, ?_⟩
  · exact buildChanges_left_lines L R rest first hwf hchain
  · exact buildChanges_right_lines L R rest first hwf hchain
  · rw [show (buildChanges (first :: rest) L R).filterMap TextChange.line_left =
        List.range' (first.i1 + 1) ((rest.getLastD first).i2 - first.i1) from
        buildChanges_left_lines L R rest first hwf hchain]
    simp
  · rw [show (buildChanges (first :: rest) L R).filterMap TextChange.line_right =
        List.range' (first.j1 + 1) ((rest.getLastD first).j2 - first.j1) from
        buildChanges_right_lines L R rest first hwf hchain]
    simp

def c9L : List (List Nat) := [[0], [1], [2]]

def c9R : List (List Nat) := [[0], [9], [2]]

def c9First : Opcode := ⟨OpTag.equal, 0, 1, 0, 1⟩

def c9Rest : List Opcode := [⟨OpTag.replace, 1, 2, 1, 2⟩, ⟨OpTag.equal, 2, 3, 2, 3⟩]

theorem c9_hunk_line_numbers_witness :
    getGroupedOpcodes c9L c9R 3 = [c9First :: c9Rest] ∧
    (∃ h, buildHunk c9L c9R (c9First :: c9Rest) = some h ∧
      h.changes.filterMap TextChange.line_left = List.range' h.start_left h.count_left ∧
      h.changes.filterMap TextChange.line_right = List.range' h.start_right h.count_right ∧
      (h.changes.filterMap TextChange.line_left).length = h.count_left ∧
      (h.changes.filterMap TextChange.line_right).length = h.count_right) :=
  ⟨by decide,
    c9_hunk_line_numbers c9L c9R c9First c9Rest (by decide)
      (List.chain'_cons.mpr ⟨by decide,
        List.chain'_cons.mpr ⟨by decide, List.chain'_singleton _⟩⟩)⟩

end Claims

end DeepDiff
